import Mathlib

/-!
Verification of the systematic-trading platform's core against its
natural-language specification.

The Python sources are shallowly embedded:
* datetimes become `Int` (minutes); prices, volumes and weights become `ℚ`
  (the concrete scenarios of the spec use values that are exact in both);
* pandas frames become `List`s of records; predicate filters become
  `List.filter`; `sort_values`/`sort_index` become a stable insertion sort
  (pandas' tie order among equal sort keys is unspecified; no claim below
  depends on it);
* external numeric libraries (cvxpy's solve, the PCA estimate) are
  oracles passed as parameters;
* Python dicts become association lists whose key order is insertion order,
  matching CPython semantics.
-/

namespace TradingPlatform

/-- Stable insertion into a list sorted by `le` (models pandas sorting). -/
def insertSortedBy (le : α → α → Bool) (a : α) : List α → List α
  | [] => [a]
  | b :: t => if le a b then a :: b :: t else b :: insertSortedBy le a t

/-- Stable insertion sort by `le` (models pandas `sort_values` / `sort_index`). -/
def sortedBy (le : α → α → Bool) (l : List α) : List α :=
  l.foldr (insertSortedBy le) []

/-- CPython dict lookup with default, over an association list
(insertion-ordered, keys unique). -/
def dictGet (d : List (Int × α)) (k : Int) (dflt : α) : α :=
  match d.find? (fun p => p.1 == k) with
  | some p => p.2
  | none => dflt

/-- CPython dict write: an existing key keeps its position, a new key is
appended at the end. -/
def dictSet (d : List (Int × α)) (k : Int) (v : α) : List (Int × α) :=
  if d.any (fun p => p.1 == k) then
    d.map (fun p => if p.1 == k then (k, v) else p)
  else
    d ++ [(k, v)]

/-! ## Data model (src/src/core/data_platform.py) -/

/-- `Bar` of src/src/core/data_platform.py (the `open` field is `open_`:
`open` is a Lean keyword). -/
structure Bar where
  internal_id : Int
  timestamp : Int
  open_ : ℚ
  high : ℚ
  low : ℚ
  close : ℚ
  volume : ℚ
  timeframe : String
  timestamp_knowledge : Int
  deriving Repr, DecidableEq

/-- `CorporateAction` of src/src/core/data_platform.py. -/
structure CorporateAction where
  internal_id : Int
  ex_date : Int
  type : String
  value : ℚ
  deriving Repr, DecidableEq

/-- `Event` of src/src/core/data_platform.py; `value` is kept as its JSON
encoding (an opaque string). -/
structure Event where
  internal_id : Int
  timestamp : Int
  event_type : String
  value : String
  timestamp_knowledge : Int
  deriving Repr, DecidableEq

/-- `QueryConfig` of src/src/core/data_platform.py (`end` is a Lean
keyword, hence `end_`). -/
structure QueryConfig where
  start : Int
  end_ : Int
  timeframe : String
  as_of : Option Int
  adjust : Bool
  deriving Repr, DecidableEq

namespace DataPlatform

/-- `DataPlatform.add_bars` (src/src/core/data_platform.py lines 236-249)
with `aggregate_to` unset, as in the repository's test fixture: the bars
are persisted unconditionally — there is no validation — via `_write_ts`,
which concatenates them onto the stored table and sorts by the timestamp
index. -/
def add_bars (table : List Bar) (bars : List Bar) : List Bar :=
  if bars.isEmpty then table
  else sortedBy (fun a b => decide (a.timestamp ≤ b.timestamp)) (table ++ bars)

/-- The predicate filter of `get_bars` step 1 (lines 321-328): id in the
requested set, requested timeframe, event time in `[start, end]`, knowledge
time at most `as_of` (defaulting to `now`). -/
def barInQuery (iids : List Int) (cfg : QueryConfig) (now : Int) (b : Bar) : Bool :=
  iids.contains b.internal_id
    && b.timeframe == cfg.timeframe
    && decide (cfg.start ≤ b.timestamp)
    && decide (b.timestamp ≤ cfg.end_)
    && decide (b.timestamp_knowledge ≤ (cfg.as_of.getD now))

/-- Step of the point-in-time dedup: keep the bar with the greatest
`timestamp_knowledge`, the later row winning ties (models
`sort_values("timestamp_knowledge")` then `.last()`). -/
def pitStep (acc : Option Bar) (b : Bar) : Option Bar :=
  match acc with
  | none => some b
  | some a => if a.timestamp_knowledge ≤ b.timestamp_knowledge then some b else some a

/-- The representative `get_bars` keeps for one `(internal_id, timestamp)`
group after the PIT dedup. -/
def pitSelect (rows : List Bar) : Option Bar :=
  rows.foldl pitStep none

/-- The key of a bar row for the PIT dedup groupby. -/
def barKey (b : Bar) : Int × Int :=
  (b.internal_id, b.timestamp)

/-- Relation between the PIT selections of one query at two knowledge
times: identical, only the later one populated, or the later one strictly
newer. -/
def tkRel (acc₁ acc₂ : Option Bar) : Prop :=
  acc₁ = acc₂ ∨ (acc₁ = none ∧ acc₂ ≠ none) ∨
    ∃ b₁ b₂, acc₁ = some b₁ ∧ acc₂ = some b₂
      ∧ b₁.timestamp_knowledge < b₂.timestamp_knowledge

/-- Lexicographic order on groupby keys (pandas `groupby` sorts its keys). -/
def keyLe (k1 k2 : Int × Int) : Bool :=
  decide (k1.1 < k2.1) || (k1.1 == k2.1 && decide (k1.2 ≤ k2.2))

/-- The distinct groupby keys (occurrence order is irrelevant: they are
sorted next). -/
def dedupKeys : List (Int × Int) → List (Int × Int)
  | [] => []
  | k :: t => if t.contains k then dedupKeys t else k :: dedupKeys t

/-- `get_bars` step 3 (lines 334-340): within each `(internal_id, timestamp)`
group keep the row with greatest knowledge time, groups ordered by key. -/
def pitDedup (rows : List Bar) : List Bar :=
  (sortedBy keyLe (dedupKeys (rows.map barKey))).filterMap
    (fun k => pitSelect (rows.filter (fun b => barKey b == k)))

/-- The corporate actions `get_bars` applies (lines 346-351): id among the
queried ids and `ex_date ≤ cfg.end`, sorted by `ex_date` descending. -/
def caSelected (ca_table : List CorporateAction) (iids : List Int) (end_ : Int) :
    List CorporateAction :=
  sortedBy (fun a b => decide (b.ex_date ≤ a.ex_date))
    (ca_table.filter (fun ca => iids.contains ca.internal_id && decide (ca.ex_date ≤ end_)))

/-- One corporate action applied to one row of the frame (lines 361-370):
rows of the masked id strictly before the ex-date have their OHLC multiplied
by `1 / value` for a SPLIT, or reduced by `value * factor` for a DIVIDEND. -/
def applyCARow (iid : Int) (ca : CorporateAction) (factor : ℚ) (b : Bar) : Bar :=
  if b.internal_id == iid && decide (b.timestamp < ca.ex_date) then
    if ca.type == "SPLIT" then
      { b with open_ := b.open_ * (1 / ca.value), high := b.high * (1 / ca.value),
               low := b.low * (1 / ca.value), close := b.close * (1 / ca.value) }
    else if ca.type == "DIVIDEND" then
      { b with open_ := b.open_ - ca.value * factor, high := b.high - ca.value * factor,
               low := b.low - ca.value * factor, close := b.close - ca.value * factor }
    else b
  else b

/-- The cumulative split factor update (line 367): every SPLIT in the
iterated list updates it, masked or not; a DIVIDEND leaves it unchanged. -/
def nextFactor (ca : CorporateAction) (factor : ℚ) : ℚ :=
  if ca.type == "SPLIT" then factor * (1 / ca.value) else factor

/-- The inner loop of the adjustment (lines 356-370) for one id: fold the
id's corporate actions (already sorted newest first) over the whole frame,
threading the cumulative factor, which starts at 1.0. -/
def adjustForIid (cas : List CorporateAction) (iid : Int) (rows : List Bar) : List Bar :=
  ((cas.filter (fun ca => ca.internal_id == iid)).foldl
    (fun (acc : List Bar × ℚ) ca => (acc.1.map (applyCARow iid ca acc.2), nextFactor ca acc.2))
    (rows, 1)).1

/-- The outer loop of the adjustment (line 353): over the queried ids. -/
def adjustFrame (cas : List CorporateAction) (iids : List Int) (rows : List Bar) : List Bar :=
  iids.foldl (fun acc iid => adjustForIid cas iid acc) rows

/-- `DataPlatform.get_bars` (src/src/core/data_platform.py lines 317-377):
filter, early return of an empty frame, PIT dedup, then — when `adjust` is
set and the corporate-action table is nonempty — the adjustment loops.
The final column rename (`close` to `close_1D` and so on) and the float64
cast are representational and not modelled. -/
def get_bars (table : List Bar) (ca_table : List CorporateAction)
    (iids : List Int) (cfg : QueryConfig) (now : Int) : List Bar :=
  let df := table.filter (barInQuery iids cfg now)
  if df.isEmpty then df
  else
    let df := pitDedup df
    if cfg.adjust && !ca_table.isEmpty then
      adjustFrame (caSelected ca_table iids cfg.end_) iids df
    else df

/-- The row `get_bars` returns for the key `(iid, ts)`, when any. -/
def rowFor (table : List Bar) (ca_table : List CorporateAction)
    (iids : List Int) (cfg : QueryConfig) (now : Int) (iid ts : Int) : Option Bar :=
  (get_bars table ca_table iids cfg now).find? (fun b => barKey b == (iid, ts))

/-- The adjustment of a single row for a single queried id: the inner CA
loop of lines 356-370 restricted to one row (the whole-frame loop applies
it to every row; the per-id cumulative factor does not depend on the
rows). -/
def rowAdjustIid (cas : List CorporateAction) (iid : Int) (b : Bar) : Bar :=
  ((cas.filter (fun ca => ca.internal_id == iid)).foldl
    (fun (acc : Bar × ℚ) ca => (applyCARow iid ca acc.2 acc.1, nextFactor ca acc.2))
    (b, 1)).1

/-- The adjustment of a single row across the outer loop over the queried
ids. -/
def rowAdjustAll (cas : List CorporateAction) (iids : List Int) (b : Bar) : Bar :=
  iids.foldl (fun r iid => rowAdjustIid cas iid r) b

/-- The whole adjustment step of `get_bars` as it acts on a single row,
including its guard (`adjust` set and a nonempty corporate-action table). -/
def rowAdjust (ca_table : List CorporateAction) (iids : List Int) (cfg : QueryConfig)
    (b : Bar) : Bar :=
  if cfg.adjust && !ca_table.isEmpty then
    rowAdjustAll (caSelected ca_table iids cfg.end_) iids b
  else b

/-- The corporate actions of one id with `ex_date ≤ end`, newest first: the
sequence the claim says is applied to that id's rows. -/
def casForRow (ca_table : List CorporateAction) (end_ : Int) (iid : Int) :
    List CorporateAction :=
  sortedBy (fun a b => decide (b.ex_date ≤ a.ex_date))
    (ca_table.filter (fun ca => ca.internal_id == iid && decide (ca.ex_date ≤ end_)))

/-- The claim's per-row reading of the adjustment: fold the row's
applicable corporate actions, newest first, over the row, maintaining the
cumulative split factor from 1.0 — SPLIT divides the OHLC by the ratio and
scales the factor, DIVIDEND subtracts `value * factor`. -/
def specAdjustRow (cas : List CorporateAction) (b : Bar) : Bar :=
  (cas.foldl
    (fun (acc : Bar × ℚ) ca => (applyCARow b.internal_id ca acc.2 acc.1, nextFactor ca acc.2))
    (b, 1)).1

/-- `DataPlatform.get_events` (src/src/core/data_platform.py lines 379-405):
filter by id and knowledge time, then the optional event-time and type
filters. Python's `if types:` is falsy both for `None` and for an empty
list, hence the pattern on a nonempty list. -/
def get_events (events_table : List Event) (iids : List Int)
    (types : Option (List String)) (start end_ : Option Int)
    (as_of : Option Int) (now : Int) : List Event :=
  let df := events_table.filter
    (fun e => iids.contains e.internal_id
      && decide (e.timestamp_knowledge ≤ (as_of.getD now)))
  let df := match start with
    | some s => df.filter (fun e => decide (s ≤ e.timestamp))
    | none => df
  let df := match end_ with
    | some t => df.filter (fun e => decide (e.timestamp ≤ t))
    | none => df
  match types with
  | some (t0 :: rest) => df.filter (fun e => (t0 :: rest).contains e.event_type)
  | _ => df

end DataPlatform

/-! ## The legacy platform (src/src/data_platform.py) -/

/-- `Bar` of the legacy src/src/data_platform.py (no timeframe field). -/
structure LegacyBar where
  internal_id : Int
  timestamp : Int
  open_ : ℚ
  high : ℚ
  low : ℚ
  close : ℚ
  volume : ℚ
  timestamp_knowledge : Int
  deriving Repr, DecidableEq

/-- The filter of the legacy `DataPlatform.add_bars`
(src/src/data_platform.py lines 48-56): a bar is kept exactly when
`high ≥ low`, `volume ≥ 0` and `close > 0`; with `fill_gaps` unset the
kept bars are appended to the in-memory list. -/
def legacyAddBars (store : List LegacyBar) (bars : List LegacyBar) : List LegacyBar :=
  store ++ bars.filter
    (fun b => decide (b.low ≤ b.high) && decide (0 ≤ b.volume) && decide (0 < b.close))

/-- Modelled from the spec (spec.md §3, Bar invariant), for comparison with
the code: the validation invariant the claims state —
`high ≥ max(open, close, low)`, `low ≤ min(open, close, high)`,
`volume ≥ 0`, `close > 0`. -/
def specValidBar (b : Bar) : Bool :=
  decide (max b.open_ (max b.close b.low) ≤ b.high)
    && decide (b.low ≤ min b.open_ (min b.close b.high))
    && decide (0 ≤ b.volume)
    && decide (0 < b.close)

/-- Same invariant for the legacy bar shape. -/
def specValidLegacyBar (b : LegacyBar) : Bool :=
  decide (max b.open_ (max b.close b.low) ≤ b.high)
    && decide (b.low ≤ min b.open_ (min b.close b.high))
    && decide (0 ≤ b.volume)
    && decide (0 < b.close)

/-! ## Feature & alpha engine (src/src/core/alpha_engine.py) -/

/-- `SignalCombiner.combine` (src/src/core/alpha_engine.py lines 191-206):
weighted sum of signal dicts keyed by id, default weights `1/N`;
`combined[iid] = combined.get(iid, 0.0) + val * weight`. -/
def combine (signals_list : List (List (Int × ℚ))) (weights : Option (List ℚ)) :
    List (Int × ℚ) :=
  if signals_list.isEmpty then []
  else
    let ws := weights.getD
      (List.replicate signals_list.length ((1 : ℚ) / signals_list.length))
    (signals_list.zip ws).foldl
      (fun combined sw =>
        sw.1.foldl (fun c p => dictSet c p.1 (dictGet c p.1 0 + p.2 * sw.2)) combined)
      []

/-- The two `ContextVar`s of src/src/core/alpha_engine.py (lines 18-23);
the platform a context holds is represented by its events table, the only
part `AlphaModel.get_events` reaches. Both default to `none`. -/
structure AlphaContext where
  context_data : Option (List Event)
  context_as_of : Option Int

/-- The context state after `alpha_context(data, timestamp)` is entered
(lines 31-32): both variables set. `AlphaEngine.run_model` enters it with
the run's timestamp (line 187). -/
def alpha_context (data : List Event) (timestamp : Int) : AlphaContext :=
  ⟨some data, some timestamp⟩

namespace AlphaModel

/-- `AlphaModel.get_events` (src/src/core/alpha_engine.py lines 106-127):
raises `RuntimeError` when no context platform is set, otherwise forwards
to the platform's `get_events` with `as_of` bound to the context value. -/
def get_events (ctx : AlphaContext) (iids : List Int)
    (types : Option (List String)) (start end_ : Option Int) (now : Int) :
    Except String (List Event) :=
  match ctx.context_data with
  | none => .error "get_events called outside of model execution."
  | some data =>
      .ok (DataPlatform.get_events data iids types start end_ ctx.context_as_of now)

end AlphaModel

/-! ## Portfolio manager (src/src/core/portfolio_manager.py)

`W` is the type of solver outputs committed to `current_weights`
(`float` in the source); keeping it a parameter lets a non-finite solver
value be represented. The cached risk model `sigma` enters the claims only
through existence and dimension, so it is abstracted to `Option Nat`
(its `shape[0]`); `R` is the type of returns histories and the PCA estimate
`RiskModel.estimate_pca_covariance` is an oracle giving the new dimension. -/

structure PMState (W : Type) where
  current_weights : List (Int × W)
  sigmaDim : Option Nat
  peak_equity : ℚ
  current_equity : ℚ
  killed : Bool
  msg_count : Nat
  last_msg_ts : ℚ
  max_msgs : Nat
  max_dd : ℚ

namespace PMState

/-- The `PortfolioManager.__init__` defaults (lines 22-38) relevant here. -/
def init (now : ℚ) : PMState W :=
  { current_weights := [], sigmaDim := none, peak_equity := 1, current_equity := 1,
    killed := false, msg_count := 0, last_msg_ts := now, max_msgs := 10, max_dd := -1/10 }

/-- `PortfolioManager.set_safety_limits` (lines 40-42). -/
def set_safety_limits (st : PMState W) (max_msgs : Nat) (max_drawdown : ℚ) : PMState W :=
  { st with max_msgs := max_msgs, max_dd := max_drawdown }

/-- `PortfolioManager.update_risk_model` (lines 44-51); the PCA estimate is
abstracted to the dimension of the covariance it caches. -/
def update_risk_model (st : PMState W) (dim : Nat) : PMState W :=
  { st with sigmaDim := some dim }

/-- `PortfolioManager.check_safety` (lines 53-69): early false when killed;
else record the equity, update the peak, trip the kill switch on the
drawdown test, else run the sliding one-second message counter. -/
def check_safety (st : PMState W) (now : ℚ) (equity : ℚ) : PMState W × Bool :=
  if st.killed then (st, false)
  else
    let peak := max st.peak_equity equity
    let st := { st with current_equity := equity, peak_equity := peak }
    if (equity - peak) / peak < st.max_dd then
      ({ st with killed := true }, false)
    else if now - st.last_msg_ts < 1 then
      ({ st with msg_count := st.msg_count + 1 },
        decide (st.msg_count + 1 ≤ st.max_msgs))
    else
      ({ st with msg_count := 1, last_msg_ts := now }, decide (1 ≤ st.max_msgs))

/-- The tail of `PortfolioManager.optimize` (lines 95-128): the cvxpy
problem build and `solve()` are external and enter as the oracle `solve`,
whose `none` covers both an exception escaping `solve` and `w.value is
None`; on a value, commit `{iids[i]: w.value[i]}`. -/
def commitSolve (st : PMState W) (iids : List Int) (solve : Option (List W)) :
    PMState W × List (Int × W) :=
  match solve with
  | none => (st, st.current_weights)
  | some xs =>
      let st := { st with current_weights := iids.zip xs }
      (st, st.current_weights)

/-- `PortfolioManager.optimize` (lines 71-132): empty forecasts return the
stored weights; a missing or mismatched covariance with no returns history
returns the stored weights, with a history it refreshes the risk model;
then the solve step. -/
def optimize (st : PMState W) (forecasts : List (Int × ℚ))
    (returns_history : Option R) (estimateDim : R → Nat)
    (solve : Option (List W)) : PMState W × List (Int × W) :=
  let iids := sortedBy (fun a b => decide (a ≤ b)) (forecasts.map Prod.fst)
  if iids.isEmpty then (st, st.current_weights)
  else if (match st.sigmaDim with | none => true | some d => decide (d ≠ iids.length)) then
    match returns_history with
    | none => (st, st.current_weights)
    | some rh => commitSolve (st.update_risk_model (estimateDim rh)) iids solve
  else commitSolve st iids solve

end PMState

/-- The operations of `PortfolioManager` that read or write its mutable
state, as events (for the kill-switch absorption claim). -/
inductive PMOp (W R : Type) where
  | checkSafety (now equity : ℚ)
  | setSafetyLimits (max_msgs : Nat) (max_drawdown : ℚ)
  | updateRiskModel (dim : Nat)
  | doOptimize (forecasts : List (Int × ℚ)) (returns_history : Option R)
      (estimateDim : R → Nat) (solve : Option (List W))

/-- Run one operation; the `Option Bool` is `check_safety`'s result when
the operation is one. -/
def runPMOp (st : PMState W) : PMOp W R → PMState W × Option Bool
  | .checkSafety now equity =>
      let r := st.check_safety now equity
      (r.1, some r.2)
  | .setSafetyLimits m dd => (st.set_safety_limits m dd, none)
  | .updateRiskModel d => (st.update_risk_model d, none)
  | .doOptimize f rh est s => ((st.optimize f rh est s).1, none)

/-- Run a sequence of operations, collecting every `check_safety` result. -/
def runPMOps (st : PMState W) : List (PMOp W R) → PMState W × List Bool
  | [] => (st, [])
  | op :: rest =>
      let r := runPMOp st op
      let rr := runPMOps r.1 rest
      (rr.1, (match r.2 with | some b => [b] | none => []) ++ rr.2)

/-! ## Execution handler (src/src/core/execution_handler.py)

Python's child orders hold an object reference to their parent; orders are
identified here by `order_id` (unique in the source via a global counter)
and the reference becomes a lookup of the first order with that id, the
same order `next(o for o in self.orders if ...)` yields. The broker is the
oracle `submitOk` standing for `backend.submit_order`. -/

/-- `OrderState` (src/src/core/execution_handler.py lines 12-18). -/
inductive OrderState where
  | PENDING
  | SUBMITTED
  | PARTIAL
  | FILLED
  | CANCELLED
  | REJECTED
  deriving Repr, DecidableEq

/-- `OrderState.is_active` (lines 20-26). -/
def OrderState.is_active : OrderState → Bool
  | .PENDING => true
  | .SUBMITTED => true
  | .PARTIAL => true
  | _ => false

/-- `Order` (lines 29-42); `timestamp` is omitted (no claim reads it). -/
structure Order where
  order_id : Int
  ticker : String
  quantity : ℚ
  filled_qty : ℚ
  side : String
  state : OrderState
  deriving Repr, DecidableEq

/-- `Order.update` (lines 44-50): add the fill and recompute the state from
the filled quantity alone. -/
def Order.update (o : Order) (fill_qty : ℚ) : Order :=
  { o with filled_qty := o.filled_qty + fill_qty,
           state := if o.quantity ≤ o.filled_qty + fill_qty then .FILLED else .PARTIAL }

/-- `_ChildOrder` (lines 53-57), the parent held by id. -/
structure ChildOrder where
  parent_id : Int
  quantity : ℚ
  scheduled_at : ℚ

/-- The shared mutable state of `ExecutionHandler`: the parent list and the
child queue. -/
structure ExecState where
  orders : List Order
  queue : List ChildOrder

/-- A call of `backend.submit_order(ticker, qty, side)`, tagged with the
parent's id so the scheduler non-leak property can name it. -/
structure Submission where
  parent_id : Int
  ticker : String
  quantity : ℚ
  side : String

/-- `ExecutionHandler.get_order` (lines 191-193). -/
def get_order (orders : List Order) (oid : Int) : Option Order :=
  orders.find? (fun o => o.order_id == oid)

/-- In-place mutation of the order object `get_order` returned: rewrite the
first order carrying this id. -/
def modifyOrder (orders : List Order) (oid : Int) (f : Order → Order) : List Order :=
  match orders with
  | [] => []
  | o :: t => if o.order_id == oid then f o :: t else o :: modifyOrder t oid f

/-- `ExecutionHandler.cancel_order` (lines 183-189). -/
def cancel_order (st : ExecState) (oid : Int) : ExecState × Bool :=
  match get_order st.orders oid with
  | some o =>
      if o.state.is_active then
        ({ st with orders := modifyOrder st.orders oid (fun x => { x with state := .CANCELLED }) },
          true)
      else (st, false)
  | none => (st, false)

/-- The body of the worker's per-child processing (lines 93-103): skip a
child whose parent is no longer active; otherwise submit, and on success
apply the fill to the parent, on refusal set the parent REJECTED. -/
def processDue (submitOk : ChildOrder → Bool) :
    List Order → List ChildOrder → List Order × List Submission
  | orders, [] => (orders, [])
  | orders, c :: rest =>
      match get_order orders c.parent_id with
      | none => processDue submitOk orders rest
      | some parent =>
          if parent.state.is_active then
            let orders' :=
              if submitOk c then modifyOrder orders c.parent_id (fun o => o.update c.quantity)
              else modifyOrder orders c.parent_id (fun o => { o with state := .REJECTED })
            let r := processDue submitOk orders' rest
            (r.1, ⟨c.parent_id, parent.ticker, c.quantity, parent.side⟩ :: r.2)
          else processDue submitOk orders rest

/-- One wake of `_execution_loop` (lines 85-105): partition the queue into
due and later, process the due children in order. -/
def worker_step (st : ExecState) (now : ℚ) (submitOk : ChildOrder → Bool) :
    ExecState × List Submission :=
  let to_fire := st.queue.filter (fun c => decide (c.scheduled_at ≤ now))
  let later := st.queue.filter (fun c => decide (now < c.scheduled_at))
  let r := processDue submitOk st.orders to_fire
  ({ orders := r.1, queue := later }, r.2)

/-- `ExecutionHandler.vwap_execute` (lines 112-142): a fresh SUBMITTED
parent (its id drawn from the global counter, here explicit), `slices`
equal children spaced by `interval`, queue kept sorted by scheduled time. -/
def vwap_execute (st : ExecState) (oid : Int) (ticker : String) (total_qty : ℚ)
    (side : String) (slices : Nat) (interval : ℚ) (now : ℚ) : ExecState :=
  let order : Order :=
    { order_id := oid, ticker := ticker, quantity := total_qty, filled_qty := 0,
      side := side, state := .SUBMITTED }
  let children := (List.range slices).map
    (fun i => ChildOrder.mk oid (total_qty / slices) (now + i * interval))
  { orders := st.orders ++ [order],
    queue := sortedBy (fun a b => decide (a.scheduled_at ≤ b.scheduled_at))
      (st.queue ++ children) }

/-- The interleavings of the worker with the handler's public mutations,
as an event sequence. -/
inductive ExecEvent where
  | worker (now : ℚ) (submitOk : ChildOrder → Bool)
  | cancel (oid : Int)
  | vwap (oid : Int) (ticker : String) (total_qty : ℚ) (side : String)
      (slices : Nat) (interval : ℚ) (now : ℚ)

/-- Run one event; the submissions are the broker calls it makes. -/
def execStep (st : ExecState) : ExecEvent → ExecState × List Submission
  | .worker now ok => worker_step st now ok
  | .cancel oid => ((cancel_order st oid).1, [])
  | .vwap oid t q s sl i now => (vwap_execute st oid t q s sl i now, [])

/-- Run a sequence of events, collecting every broker submission. -/
def runExec (st : ExecState) : List ExecEvent → ExecState × List Submission
  | [] => (st, [])
  | e :: rest =>
      let r := execStep st e
      let rr := runExec r.1 rest
      (rr.1, r.2 ++ rr.2)

/-! ## Concrete scenarios from the spec and the repository's tests -/

/-- A weight type with a non-finite value, for exercising the solver
commit path on a non-finite solver output. -/
inductive FloatVal where
  | finite (q : ℚ)
  | nan
  deriving Repr, DecidableEq

/-- Thirty consecutive one-minute bars for one id (the setup of
`test_dataplatform_aggregates_intraday_bars`): timestamps 0..29 minutes,
close `100 + i`, volume 100. -/
def s3Table : List Bar :=
  (List.range 30).map (fun i =>
    { internal_id := 1000, timestamp := (i : Int), open_ := 100 + (i : ℚ),
      high := 101 + (i : ℚ), low := 99 + (i : ℚ), close := 100 + (i : ℚ),
      volume := 100, timeframe := "1min", timestamp_knowledge := (i : Int) })

/-- The 30-minute query over the window of `s3Table`. -/
def s3Cfg30 : QueryConfig :=
  { start := 0, end_ := 29, timeframe := "30min", as_of := none, adjust := true }

/-- The same query at the minimum timeframe. -/
def s3Cfg1 : QueryConfig :=
  { start := 0, end_ := 29, timeframe := "1min", as_of := none, adjust := true }

/-- S2 restatement scenario: the bar written with `close = 100` known at
`t = 0`. -/
def s2Bar1 : Bar :=
  { internal_id := 1000, timestamp := 0, open_ := 100, high := 101, low := 99,
    close := 100, volume := 1000, timeframe := "1D", timestamp_knowledge := 0 }

/-- S2 restatement scenario: the restated bar, `close = 105` known one hour
later. -/
def s2Bar2 : Bar :=
  { internal_id := 1000, timestamp := 0, open_ := 100, high := 105, low := 99,
    close := 105, volume := 1000, timeframe := "1D", timestamp_knowledge := 60 }

/-- The S2 table: both writes applied. -/
def s2Table : List Bar :=
  DataPlatform.add_bars (DataPlatform.add_bars [] [s2Bar1]) [s2Bar2]

/-- The S2 query at knowledge time `a`. -/
def s2Cfg (a : Int) : QueryConfig :=
  { start := 0, end_ := 0, timeframe := "1D", as_of := some a, adjust := true }

/-- S1 split scenario: bars at t1,t2,t3 = 0,1,2 with closes 100,50,50. -/
def s1Table : List Bar :=
  [ { internal_id := 1000, timestamp := 0, open_ := 100, high := 100, low := 100,
      close := 100, volume := 1000, timeframe := "1D", timestamp_knowledge := 0 },
    { internal_id := 1000, timestamp := 1, open_ := 50, high := 50, low := 50,
      close := 50, volume := 1000, timeframe := "1D", timestamp_knowledge := 1 },
    { internal_id := 1000, timestamp := 2, open_ := 50, high := 50, low := 50,
      close := 50, volume := 1000, timeframe := "1D", timestamp_knowledge := 2 } ]

/-- S1 split scenario: SPLIT(ex_date = t2, value = 2.0). -/
def s1Split : CorporateAction :=
  { internal_id := 1000, ex_date := 1, type := "SPLIT", value := 2 }

/-- The S1 query `[t1, t3]` with `adjust = true`. -/
def s1Cfg : QueryConfig :=
  { start := 0, end_ := 2, timeframe := "1D", as_of := some 10, adjust := true }

/-- A bar whose high is below its low: invalid under the validation
invariant. -/
def c4BadBar : Bar :=
  { internal_id := 1000, timestamp := 0, open_ := 100, high := 90, low := 110,
    close := 100, volume := 1000, timeframe := "1D", timestamp_knowledge := 0 }

/-- A legacy bar whose open exceeds its high: invalid under the claimed
invariant, but passing the legacy `high ≥ low`, `volume ≥ 0`, `close > 0`
check. -/
def c4OpenBar : LegacyBar :=
  { internal_id := 1000, timestamp := 0, open_ := 120, high := 110, low := 90,
    close := 100, volume := 1000, timestamp_knowledge := 0 }

/-- An active parent order. -/
def c7Order : Order :=
  { order_id := 1, ticker := "AAPL", quantity := 100, filled_qty := 0,
    side := "BUY", state := .SUBMITTED }

/-- The same parent after cancellation (a terminal state). -/
def c7Cancelled : Order :=
  { c7Order with state := .CANCELLED }

/-- A handler holding one active parent. -/
def c7State : ExecState :=
  { orders := [c7Order], queue := [] }

/-- A handler holding the cancelled parent with a still-queued child. -/
def c7TermState : ExecState :=
  { orders := [c7Cancelled], queue := [⟨1, 10, 0⟩] }

/-- An event known at knowledge time 3, for exercising the context-scoped
event query. -/
def s9Event : Event :=
  { internal_id := 1000, timestamp := 5, event_type := "EARNINGS", value := "1",
    timestamp_knowledge := 3 }

/-- A portfolio state holding one committed weight and a cached 1-dim risk
model. -/
def c5State : PMState FloatVal :=
  { current_weights := [(1000, .finite (1/2))], sigmaDim := some 1, peak_equity := 1,
    current_equity := 1, killed := false, msg_count := 0, last_msg_ts := 0,
    max_msgs := 10, max_dd := -1/10 }

/-! ## Lemmas about the list helpers -/

theorem mem_insertSortedBy {le : α → α → Bool} {a x : α} {l : List α} :
    x ∈ insertSortedBy le a l ↔ x = a ∨ x ∈ l := by
  induction l with
  | nil => simp [insertSortedBy]
  | cons b t ih =>
      simp only [insertSortedBy]
      split
      · simp [List.mem_cons]
      · simp [List.mem_cons, ih]
        tauto

theorem mem_sortedBy {le : α → α → Bool} {x : α} {l : List α} :
    x ∈ sortedBy le l ↔ x ∈ l := by
  induction l with
  | nil => simp [sortedBy]
  | cons b t ih =>
      simp only [sortedBy, List.foldr_cons]
      rw [mem_insertSortedBy]
      simp only [sortedBy] at ih
      simp [ih, List.mem_cons]

theorem length_insertSortedBy {le : α → α → Bool} (a : α) (l : List α) :
    (insertSortedBy le a l).length = l.length + 1 := by
  induction l with
  | nil => rfl
  | cons b t ih =>
      simp only [insertSortedBy]
      split
      · rfl
      · simp [ih]

theorem length_sortedBy {le : α → α → Bool} (l : List α) :
    (sortedBy le l).length = l.length := by
  induction l with
  | nil => rfl
  | cons b t ih =>
      simp only [sortedBy, List.foldr_cons] at ih ⊢
      rw [length_insertSortedBy, ih, List.length_cons]

/-! ## Claim theorems -/

/-- C1: the claim says an empty intraday filter result triggers an
on-the-fly aggregation from minimum-timeframe bars; `get_bars` has no such
step. On the repository's own test input — thirty 1-minute bars covering
one 30-minute window — the 30-minute query returns the empty frame even
though the thirty minimum-timeframe bars are present in the window. -/
theorem C1_intraday_query_returns_empty_frame :
    DataPlatform.get_bars s3Table [] [1000] s3Cfg30 10000 = []
    ∧ (DataPlatform.get_bars s3Table [] [1000] s3Cfg1 10000).length = 30 := by
  decide

/-- C4 counterexample: a bar whose high is below its low — violating the
validation invariant — is persisted verbatim by the core `add_bars`, not
dropped. -/
theorem C4_counterexample :
    specValidBar c4BadBar = false
    ∧ DataPlatform.add_bars [] [c4BadBar] = [c4BadBar] := by
  decide

/-- C4 (amended): the core platform's `add_bars` validates nothing and
persists every bar of the batch; the legacy platform's `add_bars` silently
drops exactly the bars with `high < low`, `volume < 0` or `close ≤ 0`,
persisting the rest of the batch; a bar violating only the open-price
bounds of the claimed invariant is persisted even by the legacy check. -/
theorem C4_add_bars_validation :
    (∀ (table bars : List Bar) (b : Bar), b ∈ bars → b ∈ DataPlatform.add_bars table bars)
    ∧ (∀ (store bars : List LegacyBar) (b : LegacyBar),
        b ∈ legacyAddBars store bars ↔
          b ∈ store ∨ (b ∈ bars ∧ b.low ≤ b.high ∧ 0 ≤ b.volume ∧ 0 < b.close))
    ∧ specValidLegacyBar c4OpenBar = false
    ∧ legacyAddBars [] [c4OpenBar] = [c4OpenBar] := by
  refine ⟨?_, ?_, by decide, by decide⟩
  · intro table bars b hb
    unfold DataPlatform.add_bars
    have : ¬ bars.isEmpty := by
      cases bars with
      | nil => cases hb
      | cons x t => simp
    simp only [this, if_false, Bool.false_eq_true]
    rw [mem_sortedBy]
    exact List.mem_append_right _ hb
  · intro store bars b
    unfold legacyAddBars
    simp [List.mem_append, List.mem_filter, decide_eq_true_eq, and_assoc]

/-- C4 witness: the anomalous-but-legacy-valid bar flows through both
branches of the amended statement. -/
theorem C4_add_bars_validation_witness :
    c4BadBar ∈ DataPlatform.add_bars [] [c4BadBar] :=
  C4_add_bars_validation.1 [] [c4BadBar] c4BadBar (by simp)

/-- C5 counterexample: with a cached one-dimensional risk model, a solver
value containing the non-finite `nan` is committed to `current_weights`
and returned — the code checks the value only against `None`, never for
finiteness — so the claim's "return `current_weights` unchanged on a
non-finite solver result" fails. -/
theorem C5_counterexample :
    (c5State.optimize [((1000 : Int), (1 : ℚ))] (none : Option Unit) (fun _ => 1)
        (some [FloatVal.nan])).1.current_weights = [(1000, FloatVal.nan)]
    ∧ (c5State.optimize [((1000 : Int), (1 : ℚ))] (none : Option Unit) (fun _ => 1)
        (some [FloatVal.nan])).2 ≠ c5State.current_weights := by
  decide

/-- C5 (amended): `optimize` returns the stored `current_weights` — with no
change to them — when the forecasts are empty, when the cached risk model's
dimension disagrees with the forecast count and no returns history is
supplied, and when the solver raises or produces no value; whenever the
solver produces a value, finite or not, it commits that value keyed by the
sorted forecast ids and returns it. -/
theorem C5_optimize_failure_semantics :
    ∀ (W R : Type) (st : PMState W) (forecasts : List (Int × ℚ))
      (rh : Option R) (est : R → Nat) (solve : Option (List W)),
    (forecasts = [] → st.optimize forecasts rh est solve = (st, st.current_weights))
    ∧ ((∀ d, st.sigmaDim = some d → d ≠ forecasts.length) → rh = none →
        st.optimize forecasts rh est solve = (st, st.current_weights))
    ∧ (solve = none →
        (st.optimize forecasts rh est solve).2 = st.current_weights
        ∧ (st.optimize forecasts rh est solve).1.current_weights = st.current_weights)
    ∧ (∀ xs, solve = some xs → forecasts ≠ [] →
        (st.sigmaDim = some forecasts.length ∨ rh ≠ none) →
        (st.optimize forecasts rh est solve).1.current_weights
          = (sortedBy (fun a b => decide (a ≤ b)) (forecasts.map Prod.fst)).zip xs
        ∧ (st.optimize forecasts rh est solve).2
          = (sortedBy (fun a b => decide (a ≤ b)) (forecasts.map Prod.fst)).zip xs) := by
  intro W R st forecasts rh est solve
  have hlen : (sortedBy (fun a b => decide (a ≤ b)) (forecasts.map Prod.fst)).length
      = forecasts.length := by
    rw [length_sortedBy, List.length_map]
  refine ⟨?_, ?_, ?_, ?_⟩
  · intro h
    subst h
    rfl
  · intro hmis hrh
    subst hrh
    cases hsig : st.sigmaDim with
    | none =>
        simp only [PMState.optimize, hsig]
        split <;> rfl
    | some d =>
        have hd : decide (d ≠ (sortedBy (fun a b => decide (a ≤ b))
            (forecasts.map Prod.fst)).length) = true := by
          rw [hlen, decide_eq_true_eq]
          exact hmis d hsig
        simp only [PMState.optimize, hsig, hd]
        split <;> rfl
  · intro h
    subst h
    cases hsig : st.sigmaDim with
    | none =>
        simp only [PMState.optimize, hsig]
        cases rh with
        | none => split <;> exact ⟨rfl, rfl⟩
        | some r => split <;> exact ⟨rfl, rfl⟩
    | some d =>
        simp only [PMState.optimize, hsig]
        by_cases hd : d = forecasts.length
        · have : decide (d ≠ (sortedBy (fun a b => decide (a ≤ b))
              (forecasts.map Prod.fst)).length) = false := by
            simp [hlen, hd]
          rw [this]
          split <;> exact ⟨rfl, rfl⟩
        · have : decide (d ≠ (sortedBy (fun a b => decide (a ≤ b))
              (forecasts.map Prod.fst)).length) = true := by
            simp [hlen, hd]
          rw [this]
          cases rh with
          | none => split <;> exact ⟨rfl, rfl⟩
          | some r => split <;> exact ⟨rfl, rfl⟩
  · intro xs hxs hne hcase
    subst hxs
    have hne' : (sortedBy (fun a b => decide (a ≤ b))
        (forecasts.map Prod.fst)).isEmpty = false := by
      rcases h : sortedBy (fun a b => decide (a ≤ b)) (forecasts.map Prod.fst) with _ | _
      · exfalso
        apply hne
        have := hlen
        rw [h] at this
        exact List.length_eq_zero.mp this.symm
      · rfl
    cases hsig : st.sigmaDim with
    | none =>
        cases hrh : rh with
        | none =>
            exfalso
            rcases hcase with hdim | hrne
            · rw [hsig] at hdim
              cases hdim
            · exact hrne hrh
        | some r =>
            simp only [PMState.optimize, hsig, hne', Bool.false_eq_true, if_false]
            exact ⟨rfl, rfl⟩
    | some d =>
        by_cases hd : d = forecasts.length
        · have hdec : decide (d ≠ (sortedBy (fun a b => decide (a ≤ b))
              (forecasts.map Prod.fst)).length) = false := by
            simp [hlen, hd]
          simp only [PMState.optimize, hsig, hdec, hne', Bool.false_eq_true, if_false]
          exact ⟨rfl, rfl⟩
        · have hdec : decide (d ≠ (sortedBy (fun a b => decide (a ≤ b))
              (forecasts.map Prod.fst)).length) = true := by
            simp [hlen, hd]
          cases hrh : rh with
          | none =>
              exfalso
              rcases hcase with hdim | hrne
              · rw [hsig] at hdim
                exact hd (by cases hdim; rfl)
              · exact hrne hrh
          | some r =>
              simp only [PMState.optimize, hsig, hdec, hne', Bool.false_eq_true, if_false]
              exact ⟨rfl, rfl⟩

/-- C5 witness: the amended statement instantiated at the counterexample's
state and solver, and at an empty forecast map. -/
theorem C5_optimize_failure_semantics_witness :
    (c5State.optimize [((1000 : Int), (1 : ℚ))] (none : Option Unit) (fun _ => 1)
        (some [FloatVal.nan])).1.current_weights
      = (sortedBy (fun a b => decide (a ≤ b)) ([((1000 : Int), (1 : ℚ))].map Prod.fst)).zip
          [FloatVal.nan]
    ∧ (c5State.optimize ([] : List (Int × ℚ)) (none : Option Unit) (fun _ => 1) none)
      = (c5State, c5State.current_weights) :=
  ⟨((C5_optimize_failure_semantics FloatVal Unit c5State [((1000 : Int), (1 : ℚ))] none
      (fun _ => 1) (some [FloatVal.nan])).2.2.2 [FloatVal.nan] rfl (by decide)
      (Or.inl (by decide))).1,
   (C5_optimize_failure_semantics FloatVal Unit c5State [] none (fun _ => 1) none).1 rfl⟩

theorem check_safety_of_killed {W : Type} (st : PMState W) (now equity : ℚ)
    (h : st.killed = true) : st.check_safety now equity = (st, false) := by
  simp [PMState.check_safety, h]

theorem commitSolve_killed {W : Type} (st : PMState W) (iids : List Int)
    (solve : Option (List W)) : (st.commitSolve iids solve).1.killed = st.killed := by
  cases solve <;> rfl

theorem optimize_killed {W R : Type} (st : PMState W) (forecasts : List (Int × ℚ))
    (rh : Option R) (est : R → Nat) (solve : Option (List W)) :
    (st.optimize forecasts rh est solve).1.killed = st.killed := by
  cases hsig : st.sigmaDim with
  | none =>
      simp only [PMState.optimize, hsig]
      split
      · rfl
      · cases rh with
        | none => rfl
        | some r => exact commitSolve_killed _ _ _
  | some d =>
      simp only [PMState.optimize, hsig]
      split
      · rfl
      · split
        · cases rh with
          | none => rfl
          | some r => exact commitSolve_killed _ _ _
        · exact commitSolve_killed _ _ _

theorem runPMOp_of_killed {W R : Type} (st : PMState W) (op : PMOp W R)
    (h : st.killed = true) :
    (runPMOp st op).1.killed = true ∧ ∀ b, (runPMOp st op).2 = some b → b = false := by
  cases op with
  | checkSafety now equity =>
      simp only [runPMOp, check_safety_of_killed st now equity h]
      exact ⟨h, fun b hb => by cases hb; rfl⟩
  | setSafetyLimits m dd => exact ⟨h, fun b hb => by cases hb⟩
  | updateRiskModel d => exact ⟨h, fun b hb => by cases hb⟩
  | doOptimize f rh est s =>
      refine ⟨?_, fun b hb => by cases hb⟩
      simp only [runPMOp]
      rw [optimize_killed]
      exact h

theorem runPMOps_of_killed {W R : Type} (st : PMState W) (ops : List (PMOp W R))
    (h : st.killed = true) :
    (runPMOps st ops).1.killed = true ∧ ∀ b ∈ (runPMOps st ops).2, b = false := by
  induction ops generalizing st with
  | nil => exact ⟨h, by intro b hb; cases hb⟩
  | cons op rest ih =>
      have h1 := runPMOp_of_killed st op h
      have h2 := ih (runPMOp st op).1 h1.1
      refine ⟨h2.1, ?_⟩
      intro b hb
      simp only [runPMOps, List.mem_append] at hb
      rcases hb with hb | hb
      · rcases hr : (runPMOp st op).2 with _ | v
        · rw [hr] at hb
          cases hb
        · rw [hr] at hb
          rcases List.mem_singleton.mp hb with rfl
          exact h1.2 b hr
      · exact h2.2 b hb

/-- C6: `check_safety` updates the peak to `max(peak, equity)` and trips
the kill switch exactly when `(equity − peak)/peak < max_drawdown`, with
`peak` the updated value, returning false then (the positivity hypothesis
rules out the division by zero Python would raise on); and `killed` is
absorbing — no operation of the manager resets it, and once it is set
every later `check_safety` in any operation sequence returns false. -/
theorem C6_kill_switch_absorbing :
    (∀ (W : Type) (st : PMState W) (now equity : ℚ), st.killed = false →
      0 < max st.peak_equity equity →
      (st.check_safety now equity).1.peak_equity = max st.peak_equity equity
      ∧ ((st.check_safety now equity).1.killed = true ↔
          (equity - max st.peak_equity equity) / max st.peak_equity equity < st.max_dd)
      ∧ ((equity - max st.peak_equity equity) / max st.peak_equity equity < st.max_dd →
          (st.check_safety now equity).2 = false))
    ∧ (∀ (W R : Type) (st : PMState W) (ops : List (PMOp W R)), st.killed = true →
        (runPMOps st ops).1.killed = true ∧ ∀ b ∈ (runPMOps st ops).2, b = false) := by
  constructor
  · intro W st now equity hk _hpos
    simp only [PMState.check_safety, hk, Bool.false_eq_true, if_false]
    by_cases hdd : (equity - max st.peak_equity equity) / max st.peak_equity equity < st.max_dd
    · rw [if_pos hdd]
      exact ⟨rfl, by simp [hdd], fun _ => rfl⟩
    · rw [if_neg hdd]
      refine ⟨?_, ?_, fun h => absurd h hdd⟩
      · split <;> rfl
      · split <;> simp [hk, hdd]
  · intro W R st ops h
    exact runPMOps_of_killed st ops h

/-- C6 witness: from the initial state an equity drop to 0.8 trips the
switch and returns false; from a killed state every later `check_safety`
reports false and the flag stays set. -/
theorem C6_kill_switch_absorbing_witness :
    ((PMState.init (W := ℚ) 0).check_safety 0 (4/5)).2 = false
    ∧ (runPMOps (R := Unit) { PMState.init (W := ℚ) 0 with killed := true }
        [PMOp.checkSafety 5 100]).1.killed = true :=
  ⟨(C6_kill_switch_absorbing.1 ℚ (PMState.init 0) 0 (4/5) rfl (by norm_num [PMState.init])).2.2
      (by norm_num [PMState.init]),
   (C6_kill_switch_absorbing.2 ℚ Unit _ _ rfl).1⟩

theorem find?_append_some {p : α → Bool} {l₁ l₂ : List α} {a : α}
    (h : l₁.find? p = some a) : (l₁ ++ l₂).find? p = some a := by
  induction l₁ with
  | nil => cases h
  | cons x t ih =>
      rw [List.cons_append]
      rcases hx : p x with _ | _
      · rw [List.find?_cons_of_neg _ (by simp [hx])]
        rw [List.find?_cons_of_neg _ (by simp [hx])] at h
        exact ih h
      · rw [List.find?_cons_of_pos _ hx]
        rw [List.find?_cons_of_pos _ hx] at h
        exact h

theorem get_order_modifyOrder_of_ne (orders : List Order) (p oid : Int)
    (f : Order → Order) (hf : ∀ x, (f x).order_id = x.order_id) (h : p ≠ oid) :
    get_order (modifyOrder orders p f) oid = get_order orders oid := by
  induction orders with
  | nil => rfl
  | cons a t ih =>
      simp only [modifyOrder]
      by_cases ha : a.order_id = p
      · rw [if_pos (by simp [ha])]
        unfold get_order
        rw [List.find?_cons_of_neg _ (by simp [hf a, ha, h]),
          List.find?_cons_of_neg _ (by simp [ha, h])]
      · rw [if_neg (by simp [ha])]
        unfold get_order
        by_cases hao : a.order_id = oid
        · rw [List.find?_cons_of_pos _ (by simp [hao]),
            List.find?_cons_of_pos _ (by simp [hao])]
        · rw [List.find?_cons_of_neg _ (by simp [hao]),
            List.find?_cons_of_neg _ (by simp [hao])]
          exact ih

theorem processDue_of_terminal (submitOk : ChildOrder → Bool) (due : List ChildOrder)
    (orders : List Order) (oid : Int) (o : Order)
    (ho : get_order orders oid = some o) (hin : o.state.is_active = false) :
    get_order (processDue submitOk orders due).1 oid = some o
    ∧ ∀ s ∈ (processDue submitOk orders due).2, s.parent_id ≠ oid := by
  induction due generalizing orders with
  | nil => exact ⟨ho, by intro s hs; cases hs⟩
  | cons c rest ih =>
      simp only [processDue]
      cases hp : get_order orders c.parent_id with
      | none => exact ih orders ho
      | some parent =>
          dsimp only
          by_cases hact : parent.state.is_active = true
          · rw [if_pos hact]
            have hne : c.parent_id ≠ oid := by
              intro hco
              rw [hco, ho] at hp
              cases hp
              rw [hin] at hact
              cases hact
            have hpres : ∀ (g : Order → Order), (∀ x, (g x).order_id = x.order_id) →
                get_order (modifyOrder orders c.parent_id g) oid = some o := by
              intro g hg
              rw [get_order_modifyOrder_of_ne orders c.parent_id oid g hg hne]
              exact ho
            by_cases hsub : submitOk c = true
            · rw [if_pos hsub]
              obtain ⟨h1, h2⟩ :=
                ih _ (hpres (fun o => o.update c.quantity) (fun x => rfl))
              refine ⟨h1, ?_⟩
              intro s hs
              rcases List.mem_cons.mp hs with rfl | hs
              · exact hne
              · exact h2 s hs
            · rw [if_neg hsub]
              obtain ⟨h1, h2⟩ :=
                ih _ (hpres (fun o => { o with state := OrderState.REJECTED }) (fun x => rfl))
              refine ⟨h1, ?_⟩
              intro s hs
              rcases List.mem_cons.mp hs with rfl | hs
              · exact hne
              · exact h2 s hs
          · rw [if_neg hact]
            exact ih orders ho

theorem cancel_order_of_terminal (st : ExecState) (oid' oid : Int) (o : Order)
    (ho : get_order st.orders oid = some o) (hin : o.state.is_active = false) :
    get_order (cancel_order st oid').1.orders oid = some o := by
  unfold cancel_order
  cases hp : get_order st.orders oid' with
  | none => exact ho
  | some o' =>
      dsimp only
      by_cases hact : o'.state.is_active = true
      · rw [if_pos hact]
        have hne : oid' ≠ oid := by
          intro h
          rw [h, ho] at hp
          cases hp
          rw [hin] at hact
          cases hact
        rw [get_order_modifyOrder_of_ne st.orders oid' oid
          (fun x => { x with state := OrderState.CANCELLED }) (fun x => rfl) hne]
        exact ho
      · rw [if_neg hact]
        exact ho

theorem execStep_of_terminal (st : ExecState) (e : ExecEvent) (oid : Int) (o : Order)
    (ho : get_order st.orders oid = some o) (hin : o.state.is_active = false) :
    get_order (execStep st e).1.orders oid = some o
    ∧ ∀ s ∈ (execStep st e).2, s.parent_id ≠ oid := by
  cases e with
  | worker now ok =>
      exact processDue_of_terminal ok _ st.orders oid o ho hin
  | cancel oid' =>
      exact ⟨cancel_order_of_terminal st oid' oid o ho hin, by intro s hs; cases hs⟩
  | vwap noid t q sd sl i now =>
      refine ⟨?_, by intro s hs; cases hs⟩
      exact find?_append_some ho

theorem runExec_of_terminal (evts : List ExecEvent) (st : ExecState) (oid : Int) (o : Order)
    (ho : get_order st.orders oid = some o) (hin : o.state.is_active = false) :
    get_order (runExec st evts).1.orders oid = some o
    ∧ ∀ s ∈ (runExec st evts).2, s.parent_id ≠ oid := by
  induction evts generalizing st with
  | nil => exact ⟨ho, by intro s hs; cases hs⟩
  | cons e rest ih =>
      obtain ⟨h1, h2⟩ := execStep_of_terminal st e oid o ho hin
      obtain ⟨h3, h4⟩ := ih (execStep st e).1 h1
      refine ⟨h3, ?_⟩
      intro s hs
      simp only [runExec, List.mem_append] at hs
      rcases hs with hs | hs
      · exact h2 s hs
      · exact h4 s hs

theorem cancel_spec_list (orders : List Order) (oid : Int)
    (hN : (orders.map Order.order_id).Nodup) :
    ((match get_order orders oid with
      | some o => o.state.is_active
      | none => false) = orders.any (fun x => x.order_id == oid && x.state.is_active))
    ∧ (∀ o, get_order orders oid = some o → o.state.is_active = true →
        modifyOrder orders oid (fun x => { x with state := OrderState.CANCELLED })
          = orders.map (fun x => if x.order_id == oid && x.state.is_active then
              { x with state := OrderState.CANCELLED } else x)) := by
  induction orders with
  | nil => exact ⟨rfl, by intro o h; cases h⟩
  | cons a t ih =>
      have hN' : (t.map Order.order_id).Nodup := (List.nodup_cons.mp hN).2
      have hna : a.order_id ∉ t.map Order.order_id := (List.nodup_cons.mp hN).1
      by_cases ha : a.order_id = oid
      · have hg : get_order (a :: t) oid = some a := by
          unfold get_order
          rw [List.find?_cons_of_pos _ (by simp [ha])]
        have hnot : ∀ x ∈ t, (x.order_id == oid && x.state.is_active) = false := by
          intro x hx
          have hxne : x.order_id ≠ oid := by
            intro he
            exact hna (by rw [ha, ← he]; exact List.mem_map_of_mem _ hx)
          simp [hxne]
        have htany : t.any (fun x => x.order_id == oid && x.state.is_active) = false := by
          rw [List.any_eq_false]
          intro x hx
          simp [hnot x hx]
        constructor
        · rw [hg]
          simp only [List.any_cons, htany, Bool.or_false, ha, beq_self_eq_true,
            Bool.true_and]
        · intro o ho hact
          rw [hg] at ho
          cases ho
          simp only [modifyOrder, List.map_cons]
          rw [if_pos (by simp [ha]), if_pos (by simp [ha, hact])]
          congr 1
          have : t.map (fun x => if x.order_id == oid && x.state.is_active then
              { x with state := OrderState.CANCELLED } else x) = t.map (fun x => x) := by
            apply List.map_congr_left
            intro x hx
            rw [hnot x hx]
            simp
          rw [this, List.map_id']
      · have hg : get_order (a :: t) oid = get_order t oid := by
          unfold get_order
          rw [List.find?_cons_of_neg _ (by simp [ha])]
        obtain ⟨ih1, ih2⟩ := ih hN'
        constructor
        · rw [hg, List.any_cons]
          have : (a.order_id == oid && a.state.is_active) = false := by simp [ha]
          rw [this, Bool.false_or]
          exact ih1
        · intro o ho hact
          rw [hg] at ho
          simp only [modifyOrder, List.map_cons]
          rw [if_neg (by simp [ha]), if_neg (by simp [ha])]
          rw [ih2 o ho hact]

theorem mapCancel_of_no_active (orders : List Order) (oid : Int)
    (h : orders.any (fun x => x.order_id == oid && x.state.is_active) = false) :
    orders.map (fun x => if x.order_id == oid && x.state.is_active then
      { x with state := OrderState.CANCELLED } else x) = orders := by
  induction orders with
  | nil => rfl
  | cons a t ih =>
      simp only [List.any_cons, Bool.or_eq_false_iff] at h
      simp only [List.map_cons, h.1, Bool.false_eq_true, if_false, ih h.2]

/-- C7: `cancel_order` cancels and reports true exactly when an order with
the given id exists and is in an active state — those being PENDING,
SUBMITTED and PARTIAL — and otherwise reports false leaving the state
untouched; and the worker never submits a child of a terminal parent, over
any interleaving of worker wakes, cancellations and new parent orders. -/
theorem C7_cancel_order_and_scheduler_non_leak :
    (∀ s : OrderState, s.is_active = true ↔
      (s = .PENDING ∨ s = .SUBMITTED ∨ s = .PARTIAL))
    ∧ (∀ s : OrderState, s.is_active = false ↔
      (s = .FILLED ∨ s = .CANCELLED ∨ s = .REJECTED))
    ∧ (∀ (st : ExecState) (oid : Int), (st.orders.map Order.order_id).Nodup →
        ((cancel_order st oid).2 = true ↔
          ∃ o ∈ st.orders, o.order_id = oid ∧ o.state.is_active = true)
        ∧ ((cancel_order st oid).2 = false → (cancel_order st oid).1 = st)
        ∧ (cancel_order st oid).1.orders
            = st.orders.map (fun x => if x.order_id == oid && x.state.is_active then
                { x with state := OrderState.CANCELLED } else x)
        ∧ (cancel_order st oid).1.queue = st.queue)
    ∧ (∀ (st : ExecState) (oid : Int) (o : Order) (evts : List ExecEvent),
        get_order st.orders oid = some o → o.state.is_active = false →
        ∀ s ∈ (runExec st evts).2, s.parent_id ≠ oid) := by
  refine ⟨by intro s; cases s <;> simp [OrderState.is_active],
    by intro s; cases s <;> simp [OrderState.is_active], ?_, ?_⟩
  · intro st oid hN
    obtain ⟨h1, h2⟩ := cancel_spec_list st.orders oid hN
    unfold cancel_order
    cases hp : get_order st.orders oid with
    | none =>
        dsimp only
        rw [hp] at h1
        dsimp only at h1
        refine ⟨?_, fun _ => rfl, ?_, rfl⟩
        · simp only [Bool.false_eq_true, false_iff]
          rintro ⟨o, hmem, hid, hact⟩
          have : st.orders.any (fun x => x.order_id == oid && x.state.is_active) = true :=
            List.any_eq_true.mpr ⟨o, hmem, by simp [hid, hact]⟩
          rw [← h1] at this
          cases this
        · rw [mapCancel_of_no_active st.orders oid (by rw [← h1])]
    | some o =>
        dsimp only
        by_cases hact : o.state.is_active = true
        · rw [if_pos hact]
          refine ⟨?_, ?_, ?_, rfl⟩
          · simp only [true_iff]
            refine ⟨o, List.mem_of_find?_eq_some hp, ?_, hact⟩
            have := List.find?_some hp
            simpa using this
          · intro h
            cases h
          · exact h2 o hp hact
        · rw [if_neg hact]
          rw [hp] at h1
          dsimp only at h1
          rw [Bool.not_eq_true] at hact
          rw [hact] at h1
          refine ⟨?_, fun _ => rfl, ?_, rfl⟩
          · simp only [Bool.false_eq_true, false_iff]
            rintro ⟨x, hmem, hid, hxact⟩
            have : st.orders.any (fun y => y.order_id == oid && y.state.is_active) = true :=
              List.any_eq_true.mpr ⟨x, hmem, by simp [hid, hxact]⟩
            rw [← h1] at this
            cases this
          · rw [mapCancel_of_no_active st.orders oid (by rw [← h1])]
  · intro st oid o evts ho hin
    exact (runExec_of_terminal evts st oid o ho hin).2

/-- C7 witness: cancelling the live parent succeeds, and a worker wake on
the cancelled parent's queued child submits nothing for it. -/
theorem C7_cancel_order_and_scheduler_non_leak_witness :
    (cancel_order c7State 1).2 = true
    ∧ ∀ s ∈ (runExec c7TermState [ExecEvent.worker 100 (fun _ => true)]).2,
        s.parent_id ≠ 1 :=
  ⟨((C7_cancel_order_and_scheduler_non_leak.2.2.1 c7State 1 (by decide)).1).mpr
      ⟨c7Order, by simp [c7State], rfl, rfl⟩,
   C7_cancel_order_and_scheduler_non_leak.2.2.2 c7TermState 1 c7Cancelled
      [ExecEvent.worker 100 (fun _ => true)] (by decide) (by decide)⟩

theorem get_events_subset (data : List Event) (iids : List Int)
    (types : Option (List String)) (start end_ : Option Int)
    (as_of : Option Int) (now : Int) :
    ∀ e ∈ DataPlatform.get_events data iids types start end_ as_of now,
      e ∈ data.filter (fun e => iids.contains e.internal_id
        && decide (e.timestamp_knowledge ≤ as_of.getD now)) := by
  unfold DataPlatform.get_events
  cases start <;> cases end_ <;> rcases types with _ | (_ | ⟨t0, rest⟩) <;>
    · intro e he
      simp only [List.mem_filter] at he ⊢
      tauto

/-- C9: the model-side `get_events` fails with a `RuntimeError` outside
any execution context — an error surfaced to the caller, never an `ok`
result — and inside the context entered around a model run it forwards to
the platform's `get_events` with `as_of` bound to the run's timestamp, so
every event it yields comes from the platform, lies in the queried id set
and was known by that timestamp. -/
theorem C9_event_query_context :
    (∀ (asOf : Option Int) (iids : List Int) (types : Option (List String))
        (start end_ : Option Int) (now : Int),
      AlphaModel.get_events ⟨none, asOf⟩ iids types start end_ now
        = Except.error "get_events called outside of model execution."
      ∧ ∀ l, AlphaModel.get_events ⟨none, asOf⟩ iids types start end_ now ≠ Except.ok l)
    ∧ (∀ (data : List Event) (ts : Int) (iids : List Int) (types : Option (List String))
        (start end_ : Option Int) (now : Int),
      AlphaModel.get_events (alpha_context data ts) iids types start end_ now
        = Except.ok (DataPlatform.get_events data iids types start end_ (some ts) now)
      ∧ ∀ e ∈ DataPlatform.get_events data iids types start end_ (some ts) now,
          e ∈ data ∧ e.internal_id ∈ iids ∧ e.timestamp_knowledge ≤ ts) := by
  constructor
  · intro asOf iids types start end_ now
    exact ⟨rfl, fun l h => by cases h⟩
  · intro data ts iids types start end_ now
    refine ⟨rfl, ?_⟩
    intro e he
    have h := get_events_subset data iids types start end_ (some ts) now e he
    rw [List.mem_filter] at h
    obtain ⟨hd, hb⟩ := h
    rw [Bool.and_eq_true] at hb
    refine ⟨hd, ?_, ?_⟩
    · have := hb.1
      simpa [List.contains, List.elem_iff] using this
    · have := hb.2
      simpa using this

/-- C9 witness: a concrete event in a registered window flows through the
in-context query and is reported with its knowledge bound. -/
theorem C9_event_query_context_witness :
    s9Event ∈ [s9Event] ∧ s9Event.internal_id ∈ [(1000 : Int)]
    ∧ s9Event.timestamp_knowledge ≤ 10 :=
  (C9_event_query_context.2 [s9Event] 10 [1000] none none none 99).2 s9Event (by decide)

theorem find?_append_none {p : α → Bool} {l₁ l₂ : List α} (h : l₁.find? p = none) :
    (l₁ ++ l₂).find? p = l₂.find? p := by
  induction l₁ with
  | nil => rfl
  | cons x t ih =>
      rcases hx : p x with _ | _
      · rw [List.find?_cons_of_neg _ (by simp [hx])] at h
        rw [List.cons_append, List.find?_cons_of_neg _ (by simp [hx])]
        exact ih h
      · rw [List.find?_cons_of_pos _ hx] at h
        cases h

theorem dictGet_of_absent (d : List (Int × α)) (k : Int) (dflt : α)
    (h : ∀ p ∈ d, p.1 ≠ k) : dictGet d k dflt = dflt := by
  unfold dictGet
  rw [List.find?_eq_none.mpr (by intro x hx; simp [h x hx])]

theorem dictGet_append_cons (A B : List (Int × α)) (k : Int) (x dflt : α)
    (hA : ∀ q ∈ A, q.1 ≠ k) : dictGet (A ++ (k, x) :: B) k dflt = x := by
  unfold dictGet
  rw [find?_append_none (List.find?_eq_none.mpr (by intro q hq; simp [hA q hq])),
    List.find?_cons_of_pos _ (by simp)]

theorem dictSet_absent (d : List (Int × α)) (k : Int) (v : α)
    (h : ∀ p ∈ d, p.1 ≠ k) : dictSet d k v = d ++ [(k, v)] := by
  unfold dictSet
  rw [if_neg]
  rw [Bool.not_eq_true, List.any_eq_false]
  intro p hp
  simp [h p hp]

theorem dictSet_replace (A B : List (Int × α)) (k : Int) (x v : α)
    (hA : ∀ q ∈ A, q.1 ≠ k) (hB : ∀ q ∈ B, q.1 ≠ k) :
    dictSet (A ++ (k, x) :: B) k v = A ++ (k, v) :: B := by
  unfold dictSet
  rw [if_pos (List.any_eq_true.mpr ⟨(k, x), by simp, by simp⟩)]
  rw [List.map_append, List.map_cons]
  have hmapA : A.map (fun q => if q.1 == k then ((k, v) : Int × α) else q) = A := by
    have h : ∀ q ∈ A, (if q.1 == k then ((k, v) : Int × α) else q) = q := by
      intro q hq
      simp [hA q hq]
    rw [List.map_congr_left h, List.map_id']
  have hmapB : B.map (fun q => if q.1 == k then ((k, v) : Int × α) else q) = B := by
    have h : ∀ q ∈ B, (if q.1 == k then ((k, v) : Int × α) else q) = q := by
      intro q hq
      simp [hB q hq]
    rw [List.map_congr_left h, List.map_id']
  rw [hmapA, hmapB]
  simp

theorem combine_pass_fresh (w : ℚ) (s : List (Int × ℚ)) :
    (s.map Prod.fst).Nodup → ∀ acc, (∀ p ∈ s, ∀ q ∈ acc, q.1 ≠ p.1) →
    s.foldl (fun c p => dictSet c p.1 (dictGet c p.1 0 + p.2 * w)) acc
      = acc ++ s.map (fun p => (p.1, 0 + p.2 * w)) := by
  induction s with
  | nil => intro _ acc _; simp
  | cons p t ih =>
      intro hN acc hd
      rw [List.map_cons, List.nodup_cons] at hN
      rw [List.foldl_cons]
      rw [dictGet_of_absent acc p.1 0 (fun q hq => hd p (by simp) q hq),
        dictSet_absent acc p.1 _ (fun q hq => hd p (by simp) q hq)]
      rw [ih hN.2 _ ?_]
      · rw [List.map_cons, List.append_assoc]
        rfl
      · intro x hx q hq
        rcases List.mem_append.mp hq with hq | hq
        · exact hd x (by simp [hx]) q hq
        · rcases List.mem_singleton.mp hq with rfl
          intro he
          have hpx : p.1 = x.1 := he
          have hmem : x.1 ∈ t.map Prod.fst := List.mem_map_of_mem _ hx
          rw [← hpx] at hmem
          exact hN.1 hmem

theorem combine_pass_update (w : ℚ) (post : List (Int × ℚ)) (v : (Int × ℚ) → ℚ) :
    (post.map Prod.fst).Nodup → ∀ A, (∀ p ∈ post, ∀ q ∈ A, q.1 ≠ p.1) →
    post.foldl (fun c p => dictSet c p.1 (dictGet c p.1 0 + p.2 * w))
        (A ++ post.map (fun p => (p.1, v p)))
      = A ++ post.map (fun p => (p.1, v p + p.2 * w)) := by
  induction post with
  | nil => intro _ A _; simp
  | cons p t ih =>
      intro hN A hd
      rw [List.map_cons, List.nodup_cons] at hN
      have hTne : ∀ q ∈ t.map (fun q => ((q.1 : Int), v q)), q.1 ≠ p.1 := by
        intro q hq he
        obtain ⟨q0, hq0, hq0e⟩ := List.mem_map.mp hq
        have hmem : q0.1 ∈ t.map Prod.fst := List.mem_map_of_mem _ hq0
        rw [show q0.1 = p.1 from by rw [← he, ← hq0e]] at hmem
        exact hN.1 hmem
      have hAne : ∀ q ∈ A, q.1 ≠ p.1 := fun q hq => hd p (by simp) q hq
      rw [List.map_cons, List.foldl_cons]
      rw [dictGet_append_cons A _ p.1 (v p) 0 hAne,
        dictSet_replace A _ p.1 (v p) _ hAne hTne]
      have hstep : A ++ (p.1, v p + p.2 * w) :: t.map (fun q => (q.1, v q))
          = (A ++ [(p.1, v p + p.2 * w)]) ++ t.map (fun q => (q.1, v q)) := by
        rw [List.append_assoc]
        rfl
      rw [hstep, ih hN.2 _ ?_]
      · rw [List.map_cons, List.append_assoc]
        rfl
      · intro x hx q hq
        rcases List.mem_append.mp hq with hq | hq
        · exact hd x (by simp [hx]) q hq
        · rcases List.mem_singleton.mp hq with rfl
          intro he
          have hpx : p.1 = x.1 := he
          have hmem : x.1 ∈ t.map Prod.fst := List.mem_map_of_mem _ hx
          rw [← hpx] at hmem
          exact hN.1 hmem

theorem find?_map_set_self (d : List (Int × α)) (k : Int) (v : α)
    (h : d.any (fun q => q.1 == k) = true) :
    (d.map (fun q => if q.1 == k then (k, v) else q)).find? (fun q => q.1 == k)
      = some (k, v) := by
  induction d with
  | nil => cases h
  | cons a t ih =>
      rw [List.map_cons]
      by_cases ha : (a.1 == k) = true
      · rw [show (if a.1 == k then ((k, v) : Int × α) else a) = (k, v) from if_pos ha]
        rw [List.find?_cons_of_pos _ (by simp)]
      · rw [show (if a.1 == k then ((k, v) : Int × α) else a) = a from if_neg (by simp_all)]
        rw [List.find?_cons_of_neg _ (by simpa using ha)]
        apply ih
        rcases List.any_eq_true.mp h with ⟨q, hq, hqk⟩
        rcases List.mem_cons.mp hq with rfl | hq
        · exact absurd hqk (by simpa using ha)
        · exact List.any_eq_true.mpr ⟨q, hq, hqk⟩

theorem find?_map_set_ne (d : List (Int × α)) (j k : Int) (v : α) (h : j ≠ k) :
    (d.map (fun q => if q.1 == j then (j, v) else q)).find? (fun q => q.1 == k)
      = d.find? (fun q => q.1 == k) := by
  induction d with
  | nil => rfl
  | cons a t ih =>
      rw [List.map_cons]
      by_cases ha : (a.1 == j) = true
      · rw [show (if a.1 == j then ((j, v) : Int × α) else a) = (j, v) from if_pos ha]
        have hak : ¬(a.1 == k) = true := by
          rw [show a.1 = j from by simpa using ha]
          simp [h]
        rw [List.find?_cons_of_neg _ (by simp [h]), List.find?_cons_of_neg _ (by exact hak)]
        exact ih
      · rw [show (if a.1 == j then ((j, v) : Int × α) else a) = a from if_neg ha]
        by_cases hak : (a.1 == k) = true
        · rw [List.find?_cons_of_pos _ (by exact hak), List.find?_cons_of_pos _ (by exact hak)]
        · rw [List.find?_cons_of_neg _ (by exact hak), List.find?_cons_of_neg _ (by exact hak)]
          exact ih

theorem dictGet_dictSet_self (d : List (Int × α)) (k : Int) (v dflt : α) :
    dictGet (dictSet d k v) k dflt = v := by
  by_cases hany : (d.any fun p => p.1 == k) = true
  · have hset : dictSet d k v = d.map (fun p => if p.1 == k then (k, v) else p) := by
      unfold dictSet
      rw [if_pos hany]
    rw [hset]
    unfold dictGet
    rw [find?_map_set_self d k v hany]
  · have habs : ∀ p ∈ d, p.1 ≠ k := by
      intro q hq
      have hfalse : (d.any fun p => p.1 == k) = false := by
        rcases hb : d.any fun p => p.1 == k
        · rfl
        · exact absurd hb hany
      have := List.any_eq_false.mp hfalse q hq
      simpa using this
    rw [dictSet_absent d k v habs]
    unfold dictGet
    rw [find?_append_none (List.find?_eq_none.mpr (fun q hq => by simp [habs q hq])),
      List.find?_cons_of_pos _ (by simp)]

theorem dictGet_dictSet_ne (d : List (Int × α)) (j k : Int) (v dflt : α)
    (h : j ≠ k) : dictGet (dictSet d j v) k dflt = dictGet d k dflt := by
  by_cases hany : (d.any fun p => p.1 == j) = true
  · have hset : dictSet d j v = d.map (fun p => if p.1 == j then (j, v) else p) := by
      unfold dictSet
      rw [if_pos hany]
    rw [hset]
    unfold dictGet
    rw [find?_map_set_ne d j k v h]
  · have habs : ∀ p ∈ d, p.1 ≠ j := by
      intro q hq
      have hfalse : (d.any fun p => p.1 == j) = false := by
        rcases hb : d.any fun p => p.1 == j
        · rfl
        · exact absurd hb hany
      have := List.any_eq_false.mp hfalse q hq
      simpa using this
    rw [dictSet_absent d j v habs]
    unfold dictGet
    rcases hfind : d.find? (fun q => q.1 == k) with _ | q0
    · rw [find?_append_none hfind, List.find?_cons_of_neg _ (by simpa using h),
        List.find?_nil, hfind]
    · rw [find?_append_some hfind, hfind]

theorem combine_pass_dictGet_absent (w : ℚ) (s : List (Int × ℚ)) (k : Int)
    (h : ∀ p ∈ s, p.1 ≠ k) :
    ∀ acc, dictGet (s.foldl (fun c p => dictSet c p.1 (dictGet c p.1 0 + p.2 * w)) acc) k 0
      = dictGet acc k 0 := by
  induction s with
  | nil => intro acc; rfl
  | cons p t ih =>
      intro acc
      rw [List.foldl_cons, ih (fun x hx => h x (by simp [hx])),
        dictGet_dictSet_ne acc p.1 k _ 0 (h p (by simp))]

theorem combine_pass_dictGet (w : ℚ) (s : List (Int × ℚ)) :
    (s.map Prod.fst).Nodup →
    ∀ acc k, dictGet (s.foldl (fun c p => dictSet c p.1 (dictGet c p.1 0 + p.2 * w)) acc) k 0
      = dictGet acc k 0 + dictGet s k 0 * w := by
  induction s with
  | nil =>
      intro _ acc k
      show dictGet acc k 0 = dictGet acc k 0 + dictGet [] k 0 * w
      show dictGet acc k 0 = dictGet acc k 0 + (0 : ℚ) * w
      ring
  | cons p t ih =>
      intro hN acc k
      rw [List.map_cons, List.nodup_cons] at hN
      rw [List.foldl_cons]
      by_cases hk : p.1 = k
      · have ht : ∀ x ∈ t, x.1 ≠ k := by
          intro x hx he
          exact hN.1 (hk ▸ he ▸ List.mem_map_of_mem _ hx)
        rw [combine_pass_dictGet_absent w t k ht, hk, dictGet_dictSet_self]
        have : dictGet (p :: t) k 0 = p.2 := by
          unfold dictGet
          rw [List.find?_cons_of_pos _ (by simp [hk])]
        rw [this]
      · rw [ih hN.2 _ k, dictGet_dictSet_ne acc p.1 k _ 0 hk]
        have : dictGet (p :: t) k 0 = dictGet t k 0 := by
          unfold dictGet
          rw [List.find?_cons_of_neg _ (by simp [hk])]
        rw [this]

theorem combine_outer_dictGet (pairs : List (List (Int × ℚ) × ℚ)) :
    (∀ sw ∈ pairs, (sw.1.map Prod.fst).Nodup) →
    ∀ acc k, dictGet (pairs.foldl
        (fun combined sw => sw.1.foldl
          (fun c p => dictSet c p.1 (dictGet c p.1 0 + p.2 * sw.2)) combined) acc) k 0
      = dictGet acc k 0 + (pairs.map (fun sw => dictGet sw.1 k 0 * sw.2)).sum := by
  induction pairs with
  | nil => intro _ acc k; simp
  | cons sw rest ih =>
      intro h acc k
      rw [List.foldl_cons, ih (fun x hx => h x (by simp [hx])) _ k,
        combine_pass_dictGet sw.2 sw.1 (h sw (by simp)) acc k,
        List.map_cons, List.sum_cons]
      ring

/-- C8: `combine` is the weighted sum keyed by id — a key absent from a
map contributes zero for that map, omitted weights default to `1/N`, and
consequently `combine([s],[1.0]) == s`, `combine([s,s],[0.5,0.5]) == s`,
and the spec's concrete example evaluates to `{1: 0.5, 2: 0.6}`. -/
theorem C8_signal_combine :
    (∀ s : List (Int × ℚ), (s.map Prod.fst).Nodup → combine [s] (some [1]) = s)
    ∧ (∀ s : List (Int × ℚ), (s.map Prod.fst).Nodup →
        combine [s, s] (some [1/2, 1/2]) = s)
    ∧ combine [[(1, 6/10), (2, 1)], [(1, 4/10), (2, 2/10)]] (some [1/2, 1/2])
        = [(1, 1/2), (2, 3/5)]
    ∧ (∀ (ls : List (List (Int × ℚ))) (ws : List ℚ) (k : Int),
        (∀ s ∈ ls, (s.map Prod.fst).Nodup) → ls ≠ [] →
        dictGet (combine ls (some ws)) k 0
          = ((ls.zip ws).map (fun sw => dictGet sw.1 k 0 * sw.2)).sum)
    ∧ (∀ ls : List (List (Int × ℚ)), combine ls none
        = combine ls (some (List.replicate ls.length ((1 : ℚ) / ls.length))))
    ∧ (∀ w, combine [] w = []) := by
  refine ⟨?_, ?_, by norm_num [combine, dictGet, dictSet], ?_, fun ls => rfl, fun w => rfl⟩
  · intro s hN
    have h1 : combine [s] (some [1])
        = s.foldl (fun c p => dictSet c p.1 (dictGet c p.1 0 + p.2 * 1)) [] := rfl
    rw [h1, combine_pass_fresh 1 s hN [] (by simp), List.nil_append]
    have h2 : ∀ p ∈ s, ((p.1, 0 + p.2 * 1) : Int × ℚ) = p := by
      intro p _
      have : (0 : ℚ) + p.2 * 1 = p.2 := by ring
      rw [this]
    rw [List.map_congr_left h2, List.map_id']
  · intro s hN
    have h1 : combine [s, s] (some [1/2, 1/2])
        = s.foldl (fun c p => dictSet c p.1 (dictGet c p.1 0 + p.2 * (1/2)))
            (s.foldl (fun c p => dictSet c p.1 (dictGet c p.1 0 + p.2 * (1/2))) []) := rfl
    rw [h1, combine_pass_fresh (1/2) s hN [] (by simp),
      combine_pass_update (1/2) s (fun p => 0 + p.2 * (1/2)) hN [] (by simp),
      List.nil_append]
    have h2 : ∀ p ∈ s, ((p.1, 0 + p.2 * (1/2) + p.2 * (1/2)) : Int × ℚ) = p := by
      intro p _
      have : (0 : ℚ) + p.2 * (1/2) + p.2 * (1/2) = p.2 := by ring
      rw [this]
    rw [List.map_congr_left h2, List.map_id']
  · intro ls ws k hN hne
    have hemp : ls.isEmpty = false := by
      rcases ls with _ | ⟨a, t⟩
      · exact absurd rfl hne
      · rfl
    have h1 : combine ls (some ws)
        = (ls.zip ws).foldl (fun combined sw => sw.1.foldl
            (fun c p => dictSet c p.1 (dictGet c p.1 0 + p.2 * sw.2)) combined) [] := by
      unfold combine
      rw [hemp]
      rfl
    rw [h1, combine_outer_dictGet (ls.zip ws)
      (fun sw hsw => hN sw.1 (List.of_mem_zip hsw).1) [] k]
    have : dictGet ([] : List (Int × ℚ)) k 0 = 0 := rfl
    rw [this, zero_add]

/-- C8 witness: the identity combination on a concrete two-signal map. -/
theorem C8_signal_combine_witness :
    combine [[((1 : Int), (3 : ℚ)), (2, 5)]] (some [1])
      = [((1 : Int), (3 : ℚ)), (2, 5)] :=
  C8_signal_combine.1 _ (by simp)

/-- C10: `Order.update` adds the fill and recomputes the state from the
filled quantity alone — FILLED once `filled_qty` reaches `quantity`, else
PARTIAL, an active state — without inspecting the prior state, so updating
a CANCELLED or REJECTED order moves it to PARTIAL or FILLED. -/
theorem C10_order_update_ignores_prior_state :
    (∀ (o : Order) (s : OrderState) (q : ℚ),
        Order.update { o with state := s } q = Order.update o q)
    ∧ (∀ (o : Order) (q : ℚ),
        (Order.update o q).filled_qty = o.filled_qty + q
        ∧ (Order.update o q).state
            = (if o.quantity ≤ o.filled_qty + q then .FILLED else .PARTIAL))
    ∧ (∀ (o : Order) (q : ℚ),
        (Order.update o q).state = .FILLED ∨ (Order.update o q).state = .PARTIAL)
    ∧ OrderState.PARTIAL.is_active = true
    ∧ OrderState.CANCELLED.is_active = false
    ∧ OrderState.REJECTED.is_active = false := by
  refine ⟨fun o s q => rfl, fun o q => ⟨rfl, rfl⟩, ?_, rfl, rfl, rfl⟩
  intro o q
  simp only [Order.update]
  split <;> simp

namespace DataPlatform

theorem foldl_pitStep_filter (q : Bar → Bool) (l : List Bar) :
    ∀ acc, (l.filter q).foldl pitStep acc
      = l.foldl (fun acc b => if q b then pitStep acc b else acc) acc := by
  induction l with
  | nil => intro acc; rfl
  | cons a t ih =>
      intro acc
      rw [List.filter_cons]
      by_cases ha : q a = true
      · rw [if_pos ha, List.foldl_cons, List.foldl_cons, if_pos ha]
        exact ih _
      · rw [if_neg ha, List.foldl_cons, if_neg ha]
        exact ih _

theorem foldl_pitStep_mem (l : List Bar) :
    ∀ (acc : Option Bar) (b : Bar), l.foldl pitStep acc = some b →
      acc = some b ∨ b ∈ l := by
  induction l with
  | nil => intro acc b h; exact Or.inl h
  | cons a t ih =>
      intro acc b h
      rw [List.foldl_cons] at h
      rcases ih _ b h with hstep | hmem
      · unfold pitStep at hstep
        rcases acc with _ | x
        · cases hstep
          exact Or.inr (List.mem_cons_self _ _)
        · dsimp only at hstep
          by_cases hax : x.timestamp_knowledge ≤ a.timestamp_knowledge
          · rw [if_pos hax] at hstep
            cases hstep
            exact Or.inr (List.mem_cons_self _ _)
          · rw [if_neg hax] at hstep
            exact Or.inl hstep
      · exact Or.inr (List.mem_cons_of_mem _ hmem)

theorem pitSelect_mem {rows : List Bar} {b : Bar} (h : pitSelect rows = some b) :
    b ∈ rows := by
  unfold pitSelect at h
  rcases foldl_pitStep_mem rows none b h with h0 | hm
  · cases h0
  · exact hm

theorem find?_pitDedup_keys (rows : List Bar) (k : Int × Int) :
    ∀ ks : List (Int × Int),
      (ks.filterMap (fun j => pitSelect (rows.filter (fun b => barKey b == j)))).find?
          (fun b => barKey b == k)
        = if k ∈ ks then pitSelect (rows.filter (fun b => barKey b == k)) else none := by
  intro ks
  induction ks with
  | nil => simp
  | cons j ks ih =>
      by_cases hk : j = k
      · subst hk
        rcases hsel : pitSelect (rows.filter (fun b => barKey b == j)) with _ | b
        · rw [List.filterMap_cons_none (f := fun j => pitSelect (List.filter (fun b => barKey b == j) rows)) (by exact hsel), ih, hsel]
          simp
        · have hb : (barKey b == j) = true := by
            have hmem := pitSelect_mem hsel
            exact (List.mem_filter.mp hmem).2
          rw [List.filterMap_cons_some (f := fun j => pitSelect (List.filter (fun b => barKey b == j) rows)) (by exact hsel),
            List.find?_cons_of_pos _ (by exact hb),
            if_pos (List.mem_cons_self _ _)]
      · have hcons : (k ∈ j :: ks) ↔ k ∈ ks := by
          rw [List.mem_cons]
          constructor
          · rintro (rfl | h)
            · exact absurd rfl hk
            · exact h
          · exact Or.inr
        rcases hsel : pitSelect (rows.filter (fun b => barKey b == j)) with _ | b
        · rw [List.filterMap_cons_none (f := fun j => pitSelect (List.filter (fun b => barKey b == j) rows)) (by exact hsel), ih]
          by_cases hmem : k ∈ ks
          · rw [if_pos hmem, if_pos (hcons.mpr hmem)]
          · rw [if_neg hmem, if_neg (fun h => hmem (hcons.mp h))]
        · have hb : (barKey b == k) = false := by
            have hmem := pitSelect_mem hsel
            have hbj : barKey b = j := by
              simpa using (List.mem_filter.mp hmem).2
            simp [hbj, hk]
          rw [List.filterMap_cons_some (f := fun j => pitSelect (List.filter (fun b => barKey b == j) rows)) (by exact hsel),
            List.find?_cons_of_neg _ (by simp [hb]), ih]
          by_cases hmem : k ∈ ks
          · rw [if_pos hmem, if_pos (hcons.mpr hmem)]
          · rw [if_neg hmem, if_neg (fun h => hmem (hcons.mp h))]

theorem mem_dedupKeys {k : Int × Int} :
    ∀ {l : List (Int × Int)}, k ∈ l → k ∈ dedupKeys l := by
  intro l
  induction l with
  | nil => intro h; cases h
  | cons x t ih =>
      intro h
      unfold dedupKeys
      rcases List.mem_cons.mp h with rfl | hmem
      · by_cases hx : t.contains k = true
        · rw [if_pos hx]
          exact ih (by simpa using hx)
        · rw [if_neg hx]
          exact List.mem_cons_self _ _
      · by_cases hx : t.contains x = true
        · rw [if_pos hx]
          exact ih hmem
        · rw [if_neg hx]
          exact List.mem_cons_of_mem _ (ih hmem)

theorem find?_pitDedup (rows : List Bar) (k : Int × Int) :
    (pitDedup rows).find? (fun b => barKey b == k)
      = pitSelect (rows.filter (fun b => barKey b == k)) := by
  unfold pitDedup
  rw [find?_pitDedup_keys rows k]
  by_cases hmem : k ∈ sortedBy keyLe (dedupKeys (rows.map barKey))
  · rw [if_pos hmem]
  · rw [if_neg hmem]
    have hnone : rows.filter (fun b => barKey b == k) = [] := by
      rw [List.filter_eq_nil_iff]
      intro b hb hbk
      apply hmem
      rw [mem_sortedBy]
      have hkeys : barKey b ∈ rows.map barKey := List.mem_map_of_mem _ hb
      have hkk : barKey b = k := by simpa using hbk
      rw [hkk] at hkeys
      exact mem_dedupKeys hkeys
    rw [hnone]
    rfl

theorem pit_mono_step (e : Bar) (a₁ a₂ : Int)
    (acc₁ acc₂ : Option Bar) (q₁ q₂ : Bool)
    (hb₁ : ∀ b, acc₁ = some b → b.timestamp_knowledge ≤ a₁)
    (hb₂ : ∀ b, acc₂ = some b → b.timestamp_knowledge ≤ a₂)
    (hrel : tkRel acc₁ acc₂)
    (hq : q₁ = true → q₂ = true)
    (he₁ : q₁ = true → e.timestamp_knowledge ≤ a₁)
    (he₂ : q₂ = true → e.timestamp_knowledge ≤ a₂)
    (hgt : q₁ = false → q₂ = true → a₁ < e.timestamp_knowledge) :
    (∀ b, (if q₁ then pitStep acc₁ e else acc₁) = some b → b.timestamp_knowledge ≤ a₁)
    ∧ (∀ b, (if q₂ then pitStep acc₂ e else acc₂) = some b → b.timestamp_knowledge ≤ a₂)
    ∧ tkRel (if q₁ then pitStep acc₁ e else acc₁) (if q₂ then pitStep acc₂ e else acc₂) := by
  have hstep_bound : ∀ (acc : Option Bar) (a : Int),
      (∀ b, acc = some b → b.timestamp_knowledge ≤ a) → e.timestamp_knowledge ≤ a →
      ∀ b, pitStep acc e = some b → b.timestamp_knowledge ≤ a := by
    intro acc a hacc he b hstep
    unfold pitStep at hstep
    rcases acc with _ | x
    · cases hstep
      exact he
    · dsimp only at hstep
      by_cases hx : x.timestamp_knowledge ≤ e.timestamp_knowledge
      · rw [if_pos hx] at hstep
        cases hstep
        exact he
      · rw [if_neg hx] at hstep
        cases hstep
        exact hacc b rfl
  rcases q₁ with _ | _
  · rcases q₂ with _ | _
    · rw [if_neg (by simp), if_neg (by simp)]
      exact ⟨hb₁, hb₂, hrel⟩
    · rw [if_neg (by simp), if_pos rfl]
      have hgt' : a₁ < e.timestamp_knowledge := hgt rfl rfl
      have he₂' : e.timestamp_knowledge ≤ a₂ := he₂ rfl
      refine ⟨hb₁, hstep_bound acc₂ a₂ hb₂ he₂', ?_⟩
      rcases hrel with heq | ⟨h1, h2⟩ | ⟨b₁, b₂, hb1, hb2, hlt⟩
      · subst heq
        rcases acc₁ with _ | x
        · exact Or.inr (Or.inl ⟨rfl, by unfold pitStep; simp⟩)
        · unfold pitStep
          dsimp only
          by_cases hx : x.timestamp_knowledge ≤ e.timestamp_knowledge
          · rw [if_pos hx]
            refine Or.inr (Or.inr ⟨x, e, rfl, rfl, ?_⟩)
            exact lt_of_le_of_lt (hb₁ x rfl) hgt'
          · rw [if_neg hx]
            exact Or.inl rfl
      · rcases acc₂ with _ | y
        · exact absurd rfl h2
        · subst h1
          refine Or.inr (Or.inl ⟨rfl, ?_⟩)
          unfold pitStep
          dsimp only
          split <;> simp
      · subst hb1
        subst hb2
        unfold pitStep
        dsimp only
        by_cases hy : b₂.timestamp_knowledge ≤ e.timestamp_knowledge
        · rw [if_pos hy]
          exact Or.inr (Or.inr ⟨b₁, e, rfl, rfl, lt_of_lt_of_le hlt hy⟩)
        · rw [if_neg hy]
          exact Or.inr (Or.inr ⟨b₁, b₂, rfl, rfl, hlt⟩)
  · have hq₂' : q₂ = true := hq rfl
    subst hq₂'
    rw [if_pos rfl, if_pos rfl]
    have he₁' : e.timestamp_knowledge ≤ a₁ := he₁ rfl
    have he₂' : e.timestamp_knowledge ≤ a₂ := he₂ rfl
    refine ⟨hstep_bound acc₁ a₁ hb₁ he₁', hstep_bound acc₂ a₂ hb₂ he₂', ?_⟩
    rcases hrel with heq | ⟨h1, h2⟩ | ⟨b₁, b₂, hb1, hb2, hlt⟩
    · subst heq
      exact Or.inl rfl
    · rcases acc₂ with _ | y
      · exact absurd rfl h2
      · subst h1
        unfold pitStep
        dsimp only
        by_cases hy : y.timestamp_knowledge ≤ e.timestamp_knowledge
        · rw [if_pos hy]
          exact Or.inl rfl
        · rw [if_neg hy]
          refine Or.inr (Or.inr ⟨e, y, rfl, rfl, ?_⟩)
          exact lt_of_not_le hy
    · subst hb1
      subst hb2
      unfold pitStep
      dsimp only
      by_cases hx : b₁.timestamp_knowledge ≤ e.timestamp_knowledge
      · rw [if_pos hx]
        by_cases hy : b₂.timestamp_knowledge ≤ e.timestamp_knowledge
        · rw [if_pos hy]
          exact Or.inl rfl
        · rw [if_neg hy]
          exact Or.inr (Or.inr ⟨e, b₂, rfl, rfl, lt_of_not_le hy⟩)
      · rw [if_neg hx]
        have hy : ¬ b₂.timestamp_knowledge ≤ e.timestamp_knowledge := by
          intro hy
          have h1 : e.timestamp_knowledge < b₁.timestamp_knowledge := lt_of_not_le hx
          exact lt_irrefl _ (lt_of_le_of_lt hy (lt_trans h1 hlt))
        rw [if_neg hy]
        exact Or.inr (Or.inr ⟨b₁, b₂, rfl, rfl, hlt⟩)

theorem pit_mono_fold (p : Bar → Bool) (a₁ a₂ : Int) (h12 : a₁ ≤ a₂) (l : List Bar) :
    ∀ acc₁ acc₂ : Option Bar,
      (∀ b, acc₁ = some b → b.timestamp_knowledge ≤ a₁) →
      (∀ b, acc₂ = some b → b.timestamp_knowledge ≤ a₂) →
      tkRel acc₁ acc₂ →
      (∀ b, l.foldl (fun acc b =>
          if p b && decide (b.timestamp_knowledge ≤ a₁) then pitStep acc b else acc) acc₁
            = some b → b.timestamp_knowledge ≤ a₁)
      ∧ (∀ b, l.foldl (fun acc b =>
          if p b && decide (b.timestamp_knowledge ≤ a₂) then pitStep acc b else acc) acc₂
            = some b → b.timestamp_knowledge ≤ a₂)
      ∧ tkRel
          (l.foldl (fun acc b =>
            if p b && decide (b.timestamp_knowledge ≤ a₁) then pitStep acc b else acc) acc₁)
          (l.foldl (fun acc b =>
            if p b && decide (b.timestamp_knowledge ≤ a₂) then pitStep acc b else acc) acc₂) := by
  induction l with
  | nil =>
      intro acc₁ acc₂ h1 h2 hrel
      exact ⟨h1, h2, hrel⟩
  | cons e t ih =>
      intro acc₁ acc₂ h1 h2 hrel
      rw [List.foldl_cons, List.foldl_cons]
      have hq : (p e && decide (e.timestamp_knowledge ≤ a₁)) = true →
          (p e && decide (e.timestamp_knowledge ≤ a₂)) = true := by
        intro h
        rw [Bool.and_eq_true, decide_eq_true_eq] at h ⊢
        exact ⟨h.1, le_trans h.2 h12⟩
      have he₁ : (p e && decide (e.timestamp_knowledge ≤ a₁)) = true →
          e.timestamp_knowledge ≤ a₁ := by
        intro h
        rw [Bool.and_eq_true, decide_eq_true_eq] at h
        exact h.2
      have he₂ : (p e && decide (e.timestamp_knowledge ≤ a₂)) = true →
          e.timestamp_knowledge ≤ a₂ := by
        intro h
        rw [Bool.and_eq_true, decide_eq_true_eq] at h
        exact h.2
      have hgt : (p e && decide (e.timestamp_knowledge ≤ a₁)) = false →
          (p e && decide (e.timestamp_knowledge ≤ a₂)) = true →
          a₁ < e.timestamp_knowledge := by
        intro hf ht
        rw [Bool.and_eq_true, decide_eq_true_eq] at ht
        by_contra hle
        have : (p e && decide (e.timestamp_knowledge ≤ a₁)) = true := by
          rw [Bool.and_eq_true, decide_eq_true_eq]
          exact ⟨ht.1, not_lt.mp hle⟩
        rw [hf] at this
        cases this
      obtain ⟨s1, s2, srel⟩ := pit_mono_step e a₁ a₂ acc₁ acc₂
        (p e && decide (e.timestamp_knowledge ≤ a₁))
        (p e && decide (e.timestamp_knowledge ≤ a₂))
        h1 h2 hrel hq he₁ he₂ hgt
      exact ih _ _ s1 s2 srel

theorem pit_mono (l : List Bar) (p : Bar → Bool) (a₁ a₂ : Int) (h12 : a₁ ≤ a₂) (b₁ : Bar)
    (h : pitSelect (l.filter (fun b => p b && decide (b.timestamp_knowledge ≤ a₁)))
      = some b₁) :
    ∃ b₂, pitSelect (l.filter (fun b => p b && decide (b.timestamp_knowledge ≤ a₂)))
        = some b₂
      ∧ (b₁ = b₂ ∨ b₁.timestamp_knowledge < b₂.timestamp_knowledge) := by
  unfold pitSelect at h ⊢
  rw [foldl_pitStep_filter] at h
  rw [foldl_pitStep_filter]
  obtain ⟨s1, s2, srel⟩ := pit_mono_fold p a₁ a₂ h12 l none none
    (by intro b hb; cases hb) (by intro b hb; cases hb) (Or.inl rfl)
  rcases srel with heq | ⟨h1, h2⟩ | ⟨x₁, x₂, hx1, hx2, hlt⟩
  · refine ⟨b₁, ?_, Or.inl rfl⟩
    rw [← heq]
    exact h
  · rw [h] at h1
    cases h1
  · rw [h] at hx1
    cases hx1
    exact ⟨x₂, hx2, Or.inr hlt⟩

theorem adjust_fold_map (iid : Int) (cl : List CorporateAction) :
    ∀ (rows : List Bar) (f : ℚ),
      (cl.foldl (fun (acc : List Bar × ℚ) ca =>
          (acc.1.map (applyCARow iid ca acc.2), nextFactor ca acc.2)) (rows, f)).1
        = rows.map (fun b => (cl.foldl (fun (acc : Bar × ℚ) ca =>
            (applyCARow iid ca acc.2 acc.1, nextFactor ca acc.2)) (b, f)).1) := by
  induction cl with
  | nil =>
      intro rows f
      exact (List.map_id' rows).symm
  | cons ca cl ih =>
      intro rows f
      simp only [List.foldl_cons]
      rw [ih (rows.map (applyCARow iid ca f)) (nextFactor ca f), List.map_map]
      rfl

theorem adjustForIid_eq_map (cas : List CorporateAction) (iid : Int) (rows : List Bar) :
    adjustForIid cas iid rows = rows.map (rowAdjustIid cas iid) := by
  unfold adjustForIid rowAdjustIid
  exact adjust_fold_map iid (cas.filter (fun ca => ca.internal_id == iid)) rows 1

theorem adjustFrame_eq_map (cas : List CorporateAction) :
    ∀ (iids : List Int) (rows : List Bar),
      adjustFrame cas iids rows = rows.map (rowAdjustAll cas iids) := by
  intro iids
  induction iids with
  | nil =>
      intro rows
      exact (List.map_id' rows).symm
  | cons i t ih =>
      intro rows
      unfold adjustFrame at ih ⊢
      rw [List.foldl_cons, ih (adjustForIid cas i rows), adjustForIid_eq_map,
        List.map_map]
      rfl

theorem get_bars_eq_map (table : List Bar) (ca_table : List CorporateAction)
    (iids : List Int) (cfg : QueryConfig) (now : Int) :
    get_bars table ca_table iids cfg now
      = (pitDedup (table.filter (barInQuery iids cfg now))).map
          (rowAdjust ca_table iids cfg) := by
  unfold get_bars
  by_cases hemp : (table.filter (barInQuery iids cfg now)).isEmpty = true
  · rw [if_pos hemp]
    rw [List.isEmpty_iff] at hemp
    rw [hemp]
    rfl
  · rw [if_neg hemp]
    by_cases hadj : (cfg.adjust && !ca_table.isEmpty) = true
    · rw [if_pos hadj]
      rw [adjustFrame_eq_map]
      apply List.map_congr_left
      intro b _
      unfold rowAdjust
      rw [if_pos hadj]
    · rw [if_neg hadj]
      have : rowAdjust ca_table iids cfg = fun b => b := by
        funext b
        unfold rowAdjust
        rw [if_neg hadj]
      rw [this, List.map_id']

theorem applyCARow_fields (iid : Int) (ca : CorporateAction) (f : ℚ) (b : Bar) :
    (applyCARow iid ca f b).internal_id = b.internal_id
    ∧ (applyCARow iid ca f b).timestamp = b.timestamp
    ∧ (applyCARow iid ca f b).timestamp_knowledge = b.timestamp_knowledge := by
  unfold applyCARow
  split
  · split
    · exact ⟨rfl, rfl, rfl⟩
    · split
      · exact ⟨rfl, rfl, rfl⟩
      · exact ⟨rfl, rfl, rfl⟩
  · exact ⟨rfl, rfl, rfl⟩

theorem perRow_fold_fields (iid : Int) (cl : List CorporateAction) :
    ∀ (b : Bar) (f : ℚ),
      ((cl.foldl (fun (acc : Bar × ℚ) ca =>
          (applyCARow iid ca acc.2 acc.1, nextFactor ca acc.2)) (b, f)).1).internal_id
        = b.internal_id
      ∧ ((cl.foldl (fun (acc : Bar × ℚ) ca =>
          (applyCARow iid ca acc.2 acc.1, nextFactor ca acc.2)) (b, f)).1).timestamp
        = b.timestamp
      ∧ ((cl.foldl (fun (acc : Bar × ℚ) ca =>
          (applyCARow iid ca acc.2 acc.1, nextFactor ca acc.2)) (b, f)).1).timestamp_knowledge
        = b.timestamp_knowledge := by
  induction cl with
  | nil => intro b f; exact ⟨rfl, rfl, rfl⟩
  | cons ca cl ih =>
      intro b f
      rw [List.foldl_cons]
      obtain ⟨h1, h2, h3⟩ := ih (applyCARow iid ca f b) (nextFactor ca f)
      obtain ⟨g1, g2, g3⟩ := applyCARow_fields iid ca f b
      exact ⟨h1.trans g1, h2.trans g2, h3.trans g3⟩

theorem rowAdjustIid_fields (cas : List CorporateAction) (iid : Int) (b : Bar) :
    (rowAdjustIid cas iid b).internal_id = b.internal_id
    ∧ (rowAdjustIid cas iid b).timestamp = b.timestamp
    ∧ (rowAdjustIid cas iid b).timestamp_knowledge = b.timestamp_knowledge := by
  unfold rowAdjustIid
  exact perRow_fold_fields iid _ b 1

theorem rowAdjustAll_fields (cas : List CorporateAction) :
    ∀ (iids : List Int) (b : Bar),
      (rowAdjustAll cas iids b).internal_id = b.internal_id
      ∧ (rowAdjustAll cas iids b).timestamp = b.timestamp
      ∧ (rowAdjustAll cas iids b).timestamp_knowledge = b.timestamp_knowledge := by
  intro iids
  induction iids with
  | nil => intro b; exact ⟨rfl, rfl, rfl⟩
  | cons i t ih =>
      intro b
      unfold rowAdjustAll at ih ⊢
      rw [List.foldl_cons]
      obtain ⟨h1, h2, h3⟩ := ih (rowAdjustIid cas i b)
      obtain ⟨g1, g2, g3⟩ := rowAdjustIid_fields cas i b
      exact ⟨h1.trans g1, h2.trans g2, h3.trans g3⟩

theorem rowAdjust_fields (ca_table : List CorporateAction) (iids : List Int)
    (cfg : QueryConfig) (b : Bar) :
    (rowAdjust ca_table iids cfg b).internal_id = b.internal_id
    ∧ (rowAdjust ca_table iids cfg b).timestamp = b.timestamp
    ∧ (rowAdjust ca_table iids cfg b).timestamp_knowledge = b.timestamp_knowledge := by
  unfold rowAdjust
  split
  · exact rowAdjustAll_fields _ iids b
  · exact ⟨rfl, rfl, rfl⟩

theorem find?_barKey_map (g : Bar → Bar)
    (hg : ∀ b, (g b).internal_id = b.internal_id ∧ (g b).timestamp = b.timestamp)
    (l : List Bar) (k : Int × Int) :
    (l.map g).find? (fun b => barKey b == k)
      = (l.find? (fun b => barKey b == k)).map g := by
  induction l with
  | nil => rfl
  | cons a t ih =>
      rw [List.map_cons]
      have hkey : barKey (g a) = barKey a := by
        unfold barKey
        rw [(hg a).1, (hg a).2]
      by_cases hak : (barKey a == k) = true
      · rw [List.find?_cons_of_pos _ (by rw [hkey]; exact hak),
          List.find?_cons_of_pos _ (by exact hak)]
        rfl
      · rw [List.find?_cons_of_neg _ (by rw [hkey]; exact hak),
          List.find?_cons_of_neg _ (by exact hak)]
        exact ih

end DataPlatform

theorem insertSortedBy_of_le_all {le : α → α → Bool} {a : α} :
    ∀ {l : List α}, (∀ x ∈ l, le a x = true) → insertSortedBy le a l = a :: l := by
  intro l h
  cases l with
  | nil => rfl
  | cons b t =>
      unfold insertSortedBy
      rw [if_pos (h b (List.mem_cons_self _ _))]

theorem insertSortedBy_cons (le : α → α → Bool) (a b : α) (t : List α) :
    insertSortedBy le a (b :: t)
      = if le a b then a :: b :: t else b :: insertSortedBy le a t := rfl

theorem pairwise_insertSortedBy {le : α → α → Bool}
    (htot : ∀ a b, le a b = true ∨ le b a = true)
    (htrans : ∀ a b c, le a b = true → le b c = true → le a c = true) (a : α) :
    ∀ l : List α, l.Pairwise (fun x y => le x y = true) →
      (insertSortedBy le a l).Pairwise (fun x y => le x y = true) := by
  intro l
  induction l with
  | nil => intro _; exact List.pairwise_singleton _ _
  | cons b t ih =>
      intro hp
      rw [List.pairwise_cons] at hp
      rw [insertSortedBy_cons]
      by_cases hab : le a b = true
      · rw [if_pos hab, List.pairwise_cons]
        constructor
        · intro y hy
          rcases List.mem_cons.mp hy with rfl | hy
          · exact hab
          · exact htrans a b y hab (hp.1 y hy)
        · rw [List.pairwise_cons]
          exact hp
      · rw [if_neg hab, List.pairwise_cons]
        constructor
        · intro y hy
          rcases mem_insertSortedBy.mp hy with heq | hy
          · subst heq
            rcases htot y b with h | h
            · exact absurd h hab
            · exact h
          · exact hp.1 y hy
        · exact ih hp.2

theorem pairwise_sortedBy {le : α → α → Bool}
    (htot : ∀ a b, le a b = true ∨ le b a = true)
    (htrans : ∀ a b c, le a b = true → le b c = true → le a c = true) :
    ∀ l : List α, (sortedBy le l).Pairwise (fun x y => le x y = true) := by
  intro l
  induction l with
  | nil => exact List.Pairwise.nil
  | cons x t ih => exact pairwise_insertSortedBy htot htrans x _ ih

theorem filter_insertSortedBy {le : α → α → Bool}
    (htrans : ∀ a b c, le a b = true → le b c = true → le a c = true)
    (p : α → Bool) (a : α) :
    ∀ l : List α, l.Pairwise (fun x y => le x y = true) →
      (insertSortedBy le a l).filter p
        = if p a then insertSortedBy le a (l.filter p) else l.filter p := by
  intro l
  induction l with
  | nil =>
      intro _
      by_cases hpa : p a = true
      · rw [if_pos hpa]
        show List.filter p [a] = insertSortedBy le a []
        rw [List.filter_cons, if_pos hpa]
        rfl
      · rw [if_neg hpa]
        show List.filter p [a] = List.filter p []
        rw [List.filter_cons, if_neg hpa]
  | cons b t ih =>
      intro hp
      have hpt := (List.pairwise_cons.mp hp).2
      rw [insertSortedBy_cons]
      by_cases hab : le a b = true
      · rw [if_pos hab, List.filter_cons]
        by_cases hpa : p a = true
        · rw [if_pos hpa, if_pos hpa]
          have hall : ∀ x ∈ (b :: t).filter p, le a x = true := by
            intro x hx
            rcases List.mem_cons.mp (List.mem_of_mem_filter hx) with rfl | hxt
            · exact hab
            · exact htrans a b x hab ((List.pairwise_cons.mp hp).1 x hxt)
          rw [insertSortedBy_of_le_all hall]
        · rw [if_neg hpa, if_neg hpa]
      · rw [if_neg hab, List.filter_cons, List.filter_cons, ih hpt]
        by_cases hpb : p b = true
        · rw [if_pos hpb, if_pos hpb]
          by_cases hpa : p a = true
          · rw [if_pos hpa, if_pos hpa, insertSortedBy_cons, if_neg hab]
          · rw [if_neg hpa, if_neg hpa]
        · rw [if_neg hpb, if_neg hpb]

theorem filter_sortedBy {le : α → α → Bool}
    (htot : ∀ a b, le a b = true ∨ le b a = true)
    (htrans : ∀ a b c, le a b = true → le b c = true → le a c = true)
    (p : α → Bool) :
    ∀ l : List α, (sortedBy le l).filter p = sortedBy le (l.filter p) := by
  intro l
  induction l with
  | nil => rfl
  | cons x t ih =>
      show (insertSortedBy le x (sortedBy le t)).filter p = sortedBy le ((x :: t).filter p)
      rw [filter_insertSortedBy htrans p x _ (pairwise_sortedBy htot htrans t), ih,
        List.filter_cons]
      by_cases hpx : p x = true
      · rw [if_pos hpx, if_pos hpx]
        rfl
      · rw [if_neg hpx, if_neg hpx]

namespace DataPlatform

theorem caSelected_total :
    ∀ a b : CorporateAction, (decide (b.ex_date ≤ a.ex_date) = true)
      ∨ (decide (a.ex_date ≤ b.ex_date) = true) := by
  intro a b
  rcases le_total b.ex_date a.ex_date with h | h
  · exact Or.inl (by simpa using h)
  · exact Or.inr (by simpa using h)

theorem caSelected_trans :
    ∀ a b c : CorporateAction, decide (b.ex_date ≤ a.ex_date) = true →
      decide (c.ex_date ≤ b.ex_date) = true → decide (c.ex_date ≤ a.ex_date) = true := by
  intro a b c h1 h2
  rw [decide_eq_true_eq] at h1 h2 ⊢
  exact le_trans h2 h1

theorem casForRow_eq (ca_table : List CorporateAction) (iids : List Int)
    (end_ iid : Int) (hmem : iids.contains iid = true) :
    (caSelected ca_table iids end_).filter (fun ca => ca.internal_id == iid)
      = casForRow ca_table end_ iid := by
  unfold caSelected casForRow
  rw [filter_sortedBy caSelected_total caSelected_trans]
  congr 1
  rw [List.filter_filter]
  apply List.filter_congr
  intro ca _
  by_cases hca : ca.internal_id = iid
  · have hmem2 : iid ∈ iids := by simpa using hmem
    rw [hca]
    simp [hmem2]
  · have hne : (ca.internal_id == iid) = false := by simpa using hca
    simp [hne]

theorem applyCARow_ne (iid : Int) (ca : CorporateAction) (f : ℚ) {b : Bar}
    (h : b.internal_id ≠ iid) : applyCARow iid ca f b = b := by
  unfold applyCARow
  rw [if_neg (by simp [h])]

theorem perRowFold_ne (iid : Int) (cl : List CorporateAction) :
    ∀ (b : Bar) (f : ℚ), b.internal_id ≠ iid →
      (cl.foldl (fun (acc : Bar × ℚ) ca =>
        (applyCARow iid ca acc.2 acc.1, nextFactor ca acc.2)) (b, f)).1 = b := by
  induction cl with
  | nil => intro b f _; rfl
  | cons ca cl ih =>
      intro b f h
      rw [List.foldl_cons]
      have hstep : applyCARow iid ca f b = b := applyCARow_ne iid ca f h
      dsimp only
      rw [hstep]
      exact ih b _ h

theorem rowAdjustIid_ne (cas : List CorporateAction) (iid : Int) {b : Bar}
    (h : b.internal_id ≠ iid) : rowAdjustIid cas iid b = b := by
  unfold rowAdjustIid
  exact perRowFold_ne iid _ b 1 h

theorem rowAdjustAll_not_mem (cas : List CorporateAction) :
    ∀ (t : List Int) (b : Bar), b.internal_id ∉ t → rowAdjustAll cas t b = b := by
  intro t
  induction t with
  | nil => intro b _; rfl
  | cons j u ih =>
      intro b h
      unfold rowAdjustAll at ih ⊢
      rw [List.foldl_cons]
      have hj : b.internal_id ≠ j := fun he => h (he ▸ List.mem_cons_self _ _)
      rw [rowAdjustIid_ne cas j hj]
      exact ih b (fun hm => h (List.mem_cons_of_mem _ hm))

theorem rowAdjustAll_collapse (cas : List CorporateAction) :
    ∀ (iids : List Int), iids.Nodup → ∀ b : Bar,
      rowAdjustAll cas iids b
        = if b.internal_id ∈ iids then rowAdjustIid cas b.internal_id b else b := by
  intro iids
  induction iids with
  | nil =>
      intro _ b
      rw [if_neg (List.not_mem_nil _)]
      rfl
  | cons i t ih =>
      intro hN b
      rw [List.nodup_cons] at hN
      unfold rowAdjustAll
      rw [List.foldl_cons]
      by_cases hbi : b.internal_id = i
      · have hid := (rowAdjustIid_fields cas i b).1
        have hnot : (rowAdjustIid cas i b).internal_id ∉ t := by
          rw [hid, hbi]
          exact hN.1
        have hfold := rowAdjustAll_not_mem cas t _ hnot
        unfold rowAdjustAll at hfold
        rw [hfold, if_pos (by rw [hbi]; exact List.mem_cons_self _ _), hbi]
      · rw [rowAdjustIid_ne cas i hbi]
        have ht := ih hN.2 b
        unfold rowAdjustAll at ht
        rw [ht]
        by_cases hmem : b.internal_id ∈ t
        · rw [if_pos hmem, if_pos (List.mem_cons_of_mem _ hmem)]
        · rw [if_neg hmem, if_neg ?_]
          rw [List.mem_cons]
          rintro (he | hm)
          · exact hbi he
          · exact hmem hm

theorem mem_pitDedup {rows : List Bar} {b : Bar} (h : b ∈ pitDedup rows) : b ∈ rows := by
  unfold pitDedup at h
  rcases List.mem_filterMap.mp h with ⟨k, _, hsel⟩
  exact List.mem_of_mem_filter (pitSelect_mem hsel)

end DataPlatform

open DataPlatform in
/-- C3: with `adjust = true`, every returned row is its PIT-deduped raw row
transformed by its own id's corporate actions with `ex_date ≤ end`, newest
first, under the cumulative split factor from 1.0 (SPLIT of ratio `r`
divides OHLC by `r` and scales the factor, DIVIDEND of `d` subtracts
`d · factor`); and in the S1 scenario the adjusted close at t1 is 50. -/
theorem C3_corporate_action_adjustment :
    (∀ (table : List Bar) (ca_table : List CorporateAction) (iids : List Int)
        (cfg : QueryConfig) (now : Int), cfg.adjust = true → iids.Nodup →
      get_bars table ca_table iids cfg now
        = (pitDedup (table.filter (barInQuery iids cfg now))).map
            (fun b => specAdjustRow (casForRow ca_table cfg.end_ b.internal_id) b))
    ∧ (rowFor s1Table [s1Split] [1000] s1Cfg 999 1000 0).map Bar.close = some 50 := by
  constructor
  · intro table ca_table iids cfg now hadj hN
    rw [get_bars_eq_map]
    apply List.map_congr_left
    intro b hb
    have hbmem : b ∈ table.filter (barInQuery iids cfg now) := mem_pitDedup hb
    have hbq : barInQuery iids cfg now b = true := (List.mem_filter.mp hbmem).2
    have hbc : iids.contains b.internal_id = true := by
      unfold barInQuery at hbq
      repeat rw [Bool.and_eq_true] at hbq
      exact hbq.1.1.1.1
    have hbmem' : b.internal_id ∈ iids := by
      simpa [List.contains, List.elem_iff] using hbc
    rcases ca_table with _ | ⟨c0, crest⟩
    · unfold rowAdjust
      rw [if_neg (by simp)]
      rfl
    · unfold rowAdjust
      rw [if_pos (by rw [hadj]; rfl)]
      rw [rowAdjustAll_collapse _ _ hN b, if_pos hbmem']
      rw [show rowAdjustIid (caSelected (c0 :: crest) iids cfg.end_) b.internal_id b
          = specAdjustRow ((caSelected (c0 :: crest) iids cfg.end_).filter
              (fun ca => ca.internal_id == b.internal_id)) b from rfl]
      rw [casForRow_eq _ iids _ _ hbc]
  · norm_num [rowFor, get_bars, barInQuery,
      pitDedup, pitSelect, pitStep, barKey, keyLe, dedupKeys, sortedBy, insertSortedBy,
      caSelected, adjustFrame, adjustForIid, applyCARow, nextFactor,
      s1Table, s1Split, s1Cfg]

open DataPlatform in
/-- C3 witness: the per-row characterization instantiated at the S1 split
scenario. -/
theorem C3_corporate_action_adjustment_witness :
    get_bars s1Table [s1Split] [1000] s1Cfg 999
      = (pitDedup (s1Table.filter (barInQuery [1000] s1Cfg 999))).map
          (fun b => specAdjustRow (casForRow [s1Split] s1Cfg.end_ b.internal_id) b) :=
  C3_corporate_action_adjustment.1 s1Table [s1Split] [1000] s1Cfg 999 rfl (by decide)

open DataPlatform in
/-- C2: bitemporal monotonicity of `get_bars` — for a fixed key, the row
returned at an earlier `as_of` is the row returned at a later `as_of` or
one with strictly smaller knowledge time; and in the S2 restatement
scenario, querying at the first knowledge time sees close 100 and an hour
later close 105. -/
theorem C2_bitemporal_monotonicity :
    (∀ (table : List Bar) (ca_table : List CorporateAction) (iids : List Int)
        (s e : Int) (tf : String) (adj : Bool) (now : Int) (iid ts : Int) (a₁ a₂ : Int),
      a₁ ≤ a₂ →
      ∀ b₁, rowFor table ca_table iids ⟨s, e, tf, some a₁, adj⟩ now iid ts = some b₁ →
      ∃ b₂, rowFor table ca_table iids ⟨s, e, tf, some a₂, adj⟩ now iid ts = some b₂
        ∧ (b₁ = b₂ ∨ b₁.timestamp_knowledge < b₂.timestamp_knowledge))
    ∧ (rowFor s2Table [] [1000] (s2Cfg 0) 999 1000 0).map Bar.close = some 100
    ∧ (rowFor s2Table [] [1000] (s2Cfg 60) 999 1000 0).map Bar.close = some 105 := by
  refine ⟨?_, by decide, by decide⟩
  intro table ca_table iids s e tf adj now iid ts a₁ a₂ h12 b₁ h
  have hgfun : ∀ a : Int, ∀ b : Bar,
      (rowAdjust ca_table iids ⟨s, e, tf, some a, adj⟩ b).internal_id = b.internal_id
      ∧ (rowAdjust ca_table iids ⟨s, e, tf, some a, adj⟩ b).timestamp = b.timestamp :=
    fun a b => ⟨(rowAdjust_fields _ _ _ b).1, (rowAdjust_fields _ _ _ b).2.1⟩
  have hfilter : ∀ a : Int,
      (table.filter (barInQuery iids ⟨s, e, tf, some a, adj⟩ now)).filter
          (fun b => barKey b == (iid, ts))
        = table.filter (fun b =>
            (((((iids.contains b.internal_id && (b.timeframe == tf))
                && decide (s ≤ b.timestamp)) && decide (b.timestamp ≤ e))
              && (barKey b == (iid, ts))) && decide (b.timestamp_knowledge ≤ a))) := by
    intro a
    rw [List.filter_filter]
    apply List.filter_congr
    intro b _
    unfold barInQuery
    dsimp only [Option.getD]
    simp only [Bool.and_assoc, Bool.and_comm, Bool.and_left_comm]
  unfold rowFor at h ⊢
  rw [get_bars_eq_map, find?_barKey_map _ (hgfun a₁), find?_pitDedup, hfilter a₁] at h
  rw [get_bars_eq_map, find?_barKey_map _ (hgfun a₂), find?_pitDedup, hfilter a₂]
  obtain ⟨x₁, hx, hgx⟩ := Option.map_eq_some'.mp h
  obtain ⟨x₂, hsel₂, hrel⟩ := pit_mono table
    (fun b => ((((iids.contains b.internal_id && (b.timeframe == tf))
        && decide (s ≤ b.timestamp)) && decide (b.timestamp ≤ e))
      && (barKey b == (iid, ts)))) a₁ a₂ h12 x₁ hx
  have hgeq : rowAdjust ca_table iids ⟨s, e, tf, some a₁, adj⟩
      = rowAdjust ca_table iids ⟨s, e, tf, some a₂, adj⟩ := rfl
  refine ⟨rowAdjust ca_table iids ⟨s, e, tf, some a₂, adj⟩ x₂, by rw [hsel₂]; rfl, ?_⟩
  rcases hrel with heq | hlt
  · subst heq
    rw [← hgx, hgeq]
    exact Or.inl rfl
  · right
    rw [← hgx, hgeq]
    rw [(rowAdjust_fields ca_table iids ⟨s, e, tf, some a₂, adj⟩ x₁).2.2,
      (rowAdjust_fields ca_table iids ⟨s, e, tf, some a₂, adj⟩ x₂).2.2]
    exact hlt

open DataPlatform in
/-- C2 witness: the monotonicity statement instantiated at the S2 table for
key `(1000, 0)` with knowledge times `0 ≤ 60`. -/
theorem C2_bitemporal_monotonicity_witness :
    ∃ b₂, rowFor s2Table [] [1000] ⟨0, 0, "1D", some 60, true⟩ 999 1000 0 = some b₂
      ∧ (s2Bar1 = b₂ ∨ s2Bar1.timestamp_knowledge < b₂.timestamp_knowledge) :=
  C2_bitemporal_monotonicity.1 s2Table [] [1000] 0 0 "1D" true 999 1000 0 0 60
    (by decide) s2Bar1 (by decide)

end TradingPlatform
